import Mathlib

/-!
# GridBallastChallenge: message buffer and mark/space frame decoder

A shallow embedding of `msg.c`, `msg.h` and the protocol part of `interrogate.c`.

* A C `int32_t` is an `Int` in the range `-2^31 ≤ v < 2^31`; a `uint32_t`, a `size_t`
  and an `unsigned char` are `Nat`s.  Conversions and bitwise operators on `int32_t`
  go through the 32-bit two's-complement pattern, written out with `% 2^32`.
* `struct msg` is a record of `len` and of the byte array `buf`, the array being a
  function from the index to the byte stored there.
* A C function that mutates `*msg` returns the new record; `assert` failing is `none`.
* `exit(EXIT_FAILURE)` is an `Except.error` naming the message printed; system calls
  (`tcsetattr`, `write`, `read`, `signal`) answer what the surroundings say they answer.
-/

namespace GridBallast

/-! ## Machine integers -/

/-- Predicate: the integer is a value of the C type `int32_t`. -/
def isInt32 (v : Int) : Prop := -2 ^ 31 ≤ v ∧ v < 2 ^ 31

instance (v : Int) : Decidable (isInt32 v) := by
  unfold isInt32; infer_instance

/-- The cast `(uint32_t)v` of a signed value: its two's-complement bit pattern. -/
def toUInt32 (v : Int) : Nat := (v % 2 ^ 32).toNat

/-- The cast `(int32_t)u` of an unsigned value: the pattern read as two's complement. -/
def toInt32 (u : Nat) : Int :=
  if u % 2 ^ 32 < 2 ^ 31 then ((u % 2 ^ 32 : Nat) : Int) else ((u % 2 ^ 32 : Nat) : Int) - 2 ^ 32

/-- The cast `(unsigned char)v`. -/
def toUChar (v : Int) : Nat := (v % 256).toNat

/-- The operator `a | b` on `int32_t`: bitwise on the 32-bit patterns. -/
def int32_or (a b : Int) : Int := toInt32 (toUInt32 a ||| toUInt32 b)

/-- The operator `a & b` on `int32_t`: bitwise on the 32-bit patterns. -/
def int32_and (a b : Int) : Int := toInt32 (toUInt32 a &&& toUInt32 b)

/-- The operator `a >> k` on `int32_t`: the arithmetic shift. -/
def int32_shr (a : Int) (k : Nat) : Int := a >>> k

/-- The operator `u << k` on `uint32_t`: bits shifted out of the 32 are lost. -/
def uint32_shl (u k : Nat) : Nat := (u <<< k) % 2 ^ 32

/-- The operator `a + b` on `int32_t`, wrapping around on overflow. -/
def int32_add (a b : Int) : Int := toInt32 (toUInt32 (a + b))

/-! ## msg.h / msg.c -/

/-- The C macro `MSG_BUFFER_SIZE`. -/
def MSG_BUFFER_SIZE : Nat := 256

/-- A message buffer, the C `struct msg`: `buf i` is the byte `buf[i]`. -/
structure msg where
  len : Nat
  buf : Nat → Nat

/-- The bytes in use, `buf[0] .. buf[len-1]`, as a list. -/
def msg_bytes (m : msg) : List Nat := (List.range m.len).map m.buf

/-- The libc `memcpy(dst + off, src, count)`, with `src` the list of the `count` bytes. -/
def memcpy (dst : Nat → Nat) (off : Nat) : List Nat → Nat → Nat
  | [] => dst
  | b :: bs => memcpy (Function.update dst off b) (off + 1) bs

/-- Extract an `int32_t` from a message buffer (`msg_getint32`). -/
def msg_getint32 (m : msg) : Int :=
  let result : Int := 0
  if m.len ≠ 4 then -1
  else
    let result := int32_or result (toInt32 (uint32_shl (m.buf 3) (3 * 8)))
    let result := int32_or result (toInt32 (uint32_shl (m.buf 2) (2 * 8)))
    let result := int32_or result (toInt32 (uint32_shl (m.buf 1) (1 * 8)))
    let result := int32_or result (toInt32 (uint32_shl (m.buf 0) (0 * 8)))
    result

/-- Set a message buffer to the given `int32_t` (`msg_setint32`); `none` when the
closing `assert(value == msg_getint32(msg))` fails. -/
def msg_setint32 (m : msg) (value : Int) : Option msg :=
  let buf := Function.update m.buf 0 (toUChar (int32_and (int32_shr value (0 * 8)) 0xFF))
  let buf := Function.update buf 1 (toUChar (int32_and (int32_shr value (1 * 8)) 0xFF))
  let buf := Function.update buf 2 (toUChar (int32_and (int32_shr value (2 * 8)) 0xFF))
  let buf := Function.update buf 3 (toUChar (int32_and (int32_shr value (3 * 8)) 0xFF))
  let m1 : msg := { len := 4, buf := buf }
  if value = msg_getint32 m1 then some m1 else none

/-- Reset the buffer, which empties it (`msg_reset`). -/
def msg_reset (m : msg) : msg := { m with len := 0 }

/-- The allocated size of the data buffer, `sizeof msg->buf` (`msg_asize`). -/
def msg_asize (_m : msg) : Nat := MSG_BUFFER_SIZE

/-- The used length of the data buffer (`msg_len`). -/
def msg_len (m : msg) : Nat := m.len

/-- Append the `count = buf.length` bytes of `buf` (`msg_append`): the returned flag and
the buffer afterwards; `none` when `assert(msg_len(msg) <= msg_asize(msg))` fails. -/
def msg_append (m : msg) (buf : List Nat) : Option (Bool × msg) :=
  if ¬ (msg_len m ≤ msg_asize m) then none
  else if msg_asize m - msg_len m < buf.length then some (false, m)
  else some (true, { len := m.len + buf.length, buf := memcpy m.buf m.len buf })

/-- Append one byte (`msg_appendbyte`): the returned flag and the buffer afterwards;
`none` when `assert(msg_len(msg) <= msg_asize(msg))` fails. -/
def msg_appendbyte (m : msg) (byte : Nat) : Option (Bool × msg) :=
  if ¬ (msg_len m ≤ msg_asize m) then none
  else if msg_asize m - msg_len m < 1 then some (false, m)
  else some (true, { len := m.len + 1, buf := Function.update m.buf m.len byte })

/-- The `for` loop of `msg_checksum` from `index` with the running `sum`; `fuel` bounds
the iterations that remain. -/
def msg_checksum_loop (m : msg) (index sum : Nat) : Nat → Nat
  | 0 => sum
  | fuel + 1 =>
    if m.len > 0 ∧ index < m.len - 1 then
      msg_checksum_loop m (index + 1) ((sum + m.buf index) % 256) fuel
    else sum

/-- Sum modulo 256 of all bytes but the last (`msg_checksum`); the loop runs at most
`len` times. -/
def msg_checksum (m : msg) : Nat := msg_checksum_loop m 0 0 m.len

/-- Set the buffer to the six-byte control frame (`msg_setpoint`). -/
def msg_setpoint (m : msg) (setpoint : Nat) : msg :=
  let buffer : List Nat := [0x87, 0x09, 0x03, setpoint, setpoint, 0x00]
  let m1 : msg := { len := 6, buf := m.buf }
  let m2 : msg := { m1 with buf := memcpy m1.buf 0 (buffer.take m1.len) }
  { m2 with buf := Function.update m2.buf 5 (msg_checksum m2) }

/-- The operator `a - b` on `size_t` (64 bits on the Linux target): it wraps around
below zero. -/
def size_sub (a b : Nat) : Nat := (((a : Int) - (b : Int)) % 2 ^ 64).toNat

/-- The loop of the libc `memcmp` from index `i` over `n` more bytes: zero when all of
them agree, else the difference of the first two bytes that differ (the C standard
fixes only the sign of a non-zero result). -/
def memcmp_from (s1 s2 : Nat → Nat) (i : Nat) : Nat → Int
  | 0 => 0
  | n + 1 =>
    if s1 i ≠ s2 i then (s1 i : Int) - (s2 i : Int) else memcmp_from s1 s2 (i + 1) n

/-- The libc `memcmp(s1, s2, n)`. -/
def memcmp (s1 s2 : Nat → Nat) (n : Nat) : Int := memcmp_from s1 s2 0 n

/-- Compare two message buffers (`msg_cmp`); the `size_t` difference of the lengths is
converted to the `int` returned. -/
def msg_cmp (msg1 msg2 : msg) : Int :=
  if size_sub msg1.len msg2.len ≠ 0 then toInt32 (size_sub msg1.len msg2.len)
  else memcmp msg1.buf msg2.buf msg1.len

/-- The little-endian bytes of the 32-bit two's-complement pattern of `v`, least
significant byte first. -/
def int32_le_bytes (v : Int) : List Nat :=
  [toUInt32 v % 256, toUInt32 v / 2 ^ 8 % 256, toUInt32 v / 2 ^ 16 % 256,
    toUInt32 v / 2 ^ 24 % 256]

/-! ## interrogate.c: sending a frame -/

/-- Stick parity of the serial line: the parity bit is fixed to 1 (mark) or 0 (space). -/
inductive Parity
  | mark
  | space
  deriving DecidableEq

/-- The serial line behind `fd` as the program drives it: the parity in force for the
bytes written next, and every byte written so far with the parity it went out under. -/
structure Line where
  parity : Parity
  wire : List (Parity × Nat)
  deriving DecidableEq

/-- Every way the program ends with `exit(EXIT_FAILURE)` or aborts, named after the
message printed. -/
inductive Failure
  /-- "Failed to set mark" -/
  | set_mark
  /-- "Failed to write first byte of message to fd" -/
  | write_first
  /-- "Failed to set space" -/
  | set_space
  /-- "Failed to write the remaining bytes of message to fd" -/
  | write_remaining
  /-- "Failed to setup SIGALRM handler" -/
  | signal_setup
  /-- "Failed to read from fd" -/
  | read_fd
  /-- "Protocol Error - Received invalid parity for non-first byte" -/
  | parity_nonfirst
  /-- "Got bad escape code 0x.." -/
  | bad_escape (code : Nat)
  /-- "Protocol Error - Received invalid parity for first byte" -/
  | parity_first
  /-- "Error - Too many bytes have been received" -/
  | too_many_bytes
  /-- "Error - Given summation result(..) does not match internally calculated result(..)" -/
  | sum_mismatch (givenresult sum : Int)
  /-- "# Error - You have exceeded the time limit of 2 seconds" (`alarmhandler`) -/
  | time_limit
  /-- An `assert` failed. -/
  | assertion
  deriving DecidableEq

/-- The spec's error kind `ProtocolError`: malformed escape sequence, duplicate or
missing frame-start marker, payload length overrun. -/
def Failure.isProtocolError : Failure → Bool
  | .parity_nonfirst => true
  | .bad_escape _ => true
  | .parity_first => true
  | .too_many_bytes => true
  | _ => false

/-- The spec's error kind `VerificationError`: decoded sum mismatch. -/
def Failure.isVerificationError : Failure → Bool
  | .sum_mismatch _ _ => true
  | _ => false

/-- What the operating system answers to the four calls of one `msg_send`: the status
of `setmark` and of `setspace`, and the counts the two `write` calls return. -/
structure SendEnv where
  setmark : Int
  write_first : Int
  setspace : Int
  write_remaining : Int
  deriving DecidableEq

/-- Set the parity bit to mark for the bytes written next (`setmark`).  The termios
calls are the operating system's: `status` is what they report, and a line whose
setting failed keeps its parity. -/
def setmark (fd : Line) (status : Int) : Int × Line :=
  (status, if status < 0 then fd else { fd with parity := Parity.mark })

/-- Set the parity bit to space for the bytes written next (`setspace`), as `setmark`. -/
def setspace (fd : Line) (status : Int) : Int × Line :=
  (status, if status < 0 then fd else { fd with parity := Parity.space })

/-- The system call `write(fd, bytes, count)` returning `n`: the first `n` of the bytes
went out on the wire under the parity in force. -/
def write (fd : Line) (bytes : List Nat) (n : Int) : Int × Line :=
  (n, { fd with wire := fd.wire ++ (bytes.take n.toNat).map (fun b => (fd.parity, b)) })

/-- Send a message buffer on the line (`msg_send`). -/
def msg_send (m : msg) (fd : Line) (env : SendEnv) : Except Failure Line :=
  let (status, fd) := setmark fd env.setmark
  if status < 0 then .error .set_mark
  else
    let (n, fd) := write fd [m.buf 0] env.write_first
    if n ≠ 1 then .error .write_first
    else
      let (status, fd) := setspace fd env.setspace
      if status < 0 then .error .set_space
      else if m.len > 1 then
        let (n, fd) := write fd ((List.range (m.len - 1)).map (fun i => m.buf (1 + i)))
          env.write_remaining
        if n ≠ ((m.len - 1 : Nat) : Int) then .error .write_remaining
        else .ok fd
      else .ok fd

/-! ## interrogate.c: the receive loop of `main` -/

/-- The constant `special_esc` of `main`. -/
def special_esc : Nat := 0xFF

/-- The constant `special_valid` of `main`. -/
def special_valid : Nat := 0xFF

/-- The constant `special_err` of `main`. -/
def special_err : Nat := 0x00

/-- The size `sizeof(int32_t)`, also `sizeof buf` for the read buffer of `main`. -/
def sizeof_int32 : Nat := 4

/-- The variables of the receive loop of `main`. -/
structure DecoderState where
  currmsg : msg
  markedfirstbyte : Bool
  escaped : Bool

/-- The result of a piece of the receive loop: the variables afterwards, or the
failure the program exits with together with the variables at that moment. -/
abbrev Decoded := Except (Failure × DecoderState) DecoderState

/-- The tail of the `for` body of `main`, reached for a payload byte: the marked-byte
check, `msg_appendbyte` (its flag is ignored) and the length check. -/
def handle_payload (s : DecoderState) (byte : Nat) : Decoded :=
  if !s.markedfirstbyte then .error (.parity_first, s)
  else
    match msg_appendbyte s.currmsg byte with
    | none => .error (.assertion, s)
    | some (_, currmsg) =>
      let s1 := { s with currmsg := currmsg }
      if msg_len s1.currmsg > sizeof_int32 then .error (.too_many_bytes, s1)
      else .ok s1

/-- One iteration of the `for` loop of `main` on the raw byte `buf[i]`. -/
def decode_byte (s : DecoderState) (byte : Nat) : Decoded :=
  if s.escaped then
    if byte = special_err then
      if s.markedfirstbyte then .error (.parity_nonfirst, s)
      else .ok { s with markedfirstbyte := true, escaped := false }
    else if byte = special_valid then
      handle_payload { s with escaped := false } byte
    else .error (.bad_escape byte, s)
  else if byte = special_esc then .ok { s with escaped := true }
  else handle_payload s byte

/-- The `for` loop of `main` over the `n` bytes one `read` delivered. -/
def read_bytes (s : DecoderState) : List Nat → Decoded
  | [] => .ok s
  | byte :: rest =>
    match decode_byte s byte with
    | .error e => .error e
    | .ok s1 => read_bytes s1 rest

/-- What one `read(fd, buf, sizeof buf)` returns: a negative count, or the bytes put
in `buf` (at most `sizeof buf = 4` of them, possibly none). -/
inductive ReadResult
  | failed
  | data (bytes : List Nat)
  deriving DecidableEq

/-- The `while` loop of `main`, given what the successive `read` calls return.  When the
payload is incomplete and nothing more arrives, `read` blocks until the alarm ends the
program. -/
def recv_loop (s : DecoderState) : List ReadResult → Decoded
  | [] => if msg_len s.currmsg ≠ sizeof_int32 then .error (.time_limit, s) else .ok s
  | r :: reads =>
    if msg_len s.currmsg ≠ sizeof_int32 then
      match r with
      | .failed => .error (.read_fd, s)
      | .data bytes =>
        match read_bytes s bytes with
        | .error e => .error e
        | .ok s1 => recv_loop s1 reads
    else .ok s

/-- The surroundings of one run of `main`: the stack contents the two uninitialised
buffers start with, the serial line, whether `signal` succeeded, the answers to the
calls of the two `msg_send`, and what the successive `read` calls return. -/
structure MainEnv where
  sendbuf : msg
  currmsg : msg
  fd : Line
  signal_ok : Bool
  send1 : SendEnv
  send2 : SendEnv
  reads : List ReadResult

/-- The function `main` from the sum of the operands on: the value received on success,
or the failure.  The operands are the two random values read before; opening and
configuring the device is left out, and the two-second alarm only shows as the failure
of a loop that waits for bytes that never come. -/
def main (operand1 operand2 : Int) (env : MainEnv) : Except Failure Int :=
  let sum := int32_add operand1 operand2
  if !env.signal_ok then .error .signal_setup
  else
    match msg_setint32 env.sendbuf operand1 with
    | none => .error .assertion
    | some sendbuf =>
      match msg_send sendbuf env.fd env.send1 with
      | .error e => .error e
      | .ok fd =>
        match msg_setint32 sendbuf operand2 with
        | none => .error .assertion
        | some sendbuf =>
          match msg_send sendbuf fd env.send2 with
          | .error e => .error e
          | .ok _ =>
            let currmsg := msg_reset env.currmsg
            match recv_loop { currmsg := currmsg, markedfirstbyte := false, escaped := false }
                env.reads with
            | .error (e, _) => .error e
            | .ok s =>
              let givenresult := msg_getint32 s.currmsg
              if sum ≠ givenresult then .error (.sum_mismatch givenresult sum)
              else .ok givenresult

/-! ## Vocabulary of the statements

The definitions below are not code of the program: they name, after the words of the
specification, the inputs and situations the statements speak of. -/

/-- The raw bytes the driver reports for ordinary (space-parity) bytes: a byte equal
to `0xFF` is doubled, any other byte is passed as is. -/
def escape_bytes : List Nat → List Nat
  | [] => []
  | b :: bs => if b = 0xFF then 0xFF :: 0xFF :: escape_bytes bs else b :: escape_bytes bs

/-- The raw bytes the driver reports for a frame with payload `p`: the start marker
`0xFF 0x00`, then the payload with every `0xFF` doubled. -/
def raw_frame (p : List Nat) : List Nat := 0xFF :: 0x00 :: escape_bytes p

/-- The loop variables `main` enters the receive loop with, `currmsg` having held `m`
before its reset. -/
def initial_state (m : msg) : DecoderState :=
  { currmsg := msg_reset m, markedfirstbyte := false, escaped := false }

/-- A buffer of all zero bytes and length zero. -/
def msg_zero : msg := { len := 0, buf := fun _ => 0 }

/-- The raw byte `b`, met in state `s`, is a payload byte: an ordinary byte other than
`0xFF` outside an escape, or the second `0xFF` of an escaped literal `0xFF 0xFF`. -/
def is_payload_byte (s : DecoderState) (b : Nat) : Prop :=
  (s.escaped = false ∧ b ≠ 0xFF) ∨ (s.escaped = true ∧ b = 0xFF)

instance (s : DecoderState) (b : Nat) : Decidable (is_payload_byte s b) := by
  unfold is_payload_byte; infer_instance

/-- Surroundings in which everything but the peer behaves: zeroed stack buffers, an
idle line, `signal` succeeding, both sends of four bytes succeeding in full. -/
def quiet_env (reads : List ReadResult) : MainEnv :=
  { sendbuf := msg_zero, currmsg := msg_zero, fd := { parity := Parity.space, wire := [] },
    signal_ok := true,
    send1 := { setmark := 0, write_first := 1, setspace := 0, write_remaining := 3 },
    send2 := { setmark := 0, write_first := 1, setspace := 0, write_remaining := 3 },
    reads := reads }

/-- Every parity change and every write of one `msg_send` of a buffer of `len` bytes
succeeds in full. -/
def SendEnv.succeeds (env : SendEnv) (len : Nat) : Prop :=
  0 ≤ env.setmark ∧ env.write_first = 1 ∧ 0 ≤ env.setspace
    ∧ env.write_remaining = ((len - 1 : Nat) : Int)

instance (env : SendEnv) (len : Nat) : Decidable (env.succeeds len) := by
  unfold SendEnv.succeeds; infer_instance

/-- The stream `bs` read from state `s` does not complete the payload before its end:
after every proper beginning of `bs` the buffer holds a number of bytes other than 4. -/
def NotDoneBefore (s : DecoderState) (bs : List Nat) : Prop :=
  ∀ pre suf s1, bs = pre ++ suf → suf ≠ [] → read_bytes s pre = .ok s1 →
    msg_len s1.currmsg ≠ sizeof_int32

/-- The result of reading the stream `bs` in one piece ends the `while` loop: it is a
failure, or the payload is complete. -/
def Final (r : Decoded) : Prop :=
  match r with
  | .error _ => True
  | .ok s1 => msg_len s1.currmsg = sizeof_int32

/-- The decoder in state `s`, with the raw bytes `rest` still to come, is part-way
through the frame of payload `p`. -/
def Pending (p : List Nat) (s : DecoderState) (rest : List Nat) : Prop :=
  match s.markedfirstbyte, s.escaped with
  | false, false => s.currmsg.len = 0 ∧ rest = 0xFF :: 0x00 :: escape_bytes p
  | false, true => s.currmsg.len = 0 ∧ rest = 0x00 :: escape_bytes p
  | true, false => ∃ q, rest = escape_bytes q ∧ msg_bytes s.currmsg ++ q = p
  | true, true => ∃ q, rest = 0xFF :: escape_bytes q ∧ msg_bytes s.currmsg ++ 0xFF :: q = p

/-! ## Lemmas on the machine integers -/

theorem toUInt32_toInt32 (u : Nat) : toUInt32 (toInt32 u) = u % 2 ^ 32 := by
  unfold toUInt32 toInt32
  split <;> omega

theorem toUInt32_zero : toUInt32 0 = 0 := by decide

theorem and_255 (x : Nat) : x &&& 255 = x % 256 := by
  have h := Nat.and_pow_two_sub_one_eq_mod x 8
  norm_num at h
  exact h

/-- Each byte `msg_setint32` stores is the base-256 digit of the value. -/
theorem setint32_byte (v : Int) (k : Nat) :
    toUChar (int32_and (int32_shr v k) 0xFF) = ((v / 2 ^ k) % 256).toNat := by
  have h255 : toUInt32 0xFF = 255 := by decide
  unfold toUChar int32_and int32_shr
  rw [h255, and_255, Int.shiftRight_eq_div_pow]
  unfold toInt32 toUInt32
  push_cast
  generalize v / 2 ^ k = w
  split <;> omega

/-- Bitwise or of a multiple of `2^i` and a number below `2^i` is their sum. -/
theorem or_eq_add (a b i : Nat) (hb : b < 2 ^ i) : a * 2 ^ i ||| b = a * 2 ^ i + b := by
  rw [Nat.mul_comm]
  exact (Nat.mul_add_lt_is_or hb a).symm

/-- On a four-byte buffer `msg_getint32` reads the little-endian number. -/
theorem getint32_eq (m : msg) (hlen : m.len = 4)
    (h0 : m.buf 0 < 256) (h1 : m.buf 1 < 256) (h2 : m.buf 2 < 256) (h3 : m.buf 3 < 256) :
    msg_getint32 m
      = toInt32 (m.buf 3 * 2 ^ 24 + m.buf 2 * 2 ^ 16 + m.buf 1 * 2 ^ 8 + m.buf 0) := by
  unfold msg_getint32
  simp only [hlen, ne_eq, not_true_eq_false, if_false, int32_or, toUInt32_zero,
    toUInt32_toInt32, uint32_shl, Nat.shiftLeft_eq, Nat.mod_mod, Nat.zero_or]
  generalize m.buf 0 = b0 at *
  generalize m.buf 1 = b1 at *
  generalize m.buf 2 = b2 at *
  generalize m.buf 3 = b3 at *
  have e3 : b3 * 2 ^ (3 * 8) % 2 ^ 32 = b3 * 2 ^ 24 := by omega
  have e2 : b2 * 2 ^ (2 * 8) % 2 ^ 32 = b2 * 2 ^ 16 := by omega
  have e1 : b1 * 2 ^ (1 * 8) % 2 ^ 32 = b1 * 2 ^ 8 := by omega
  have e0 : b0 * 2 ^ (0 * 8) % 2 ^ 32 = b0 := by omega
  rw [e3, e2, e1, e0]
  have o3 : b3 * 2 ^ 24 ||| b2 * 2 ^ 16 = b3 * 2 ^ 24 + b2 * 2 ^ 16 :=
    or_eq_add b3 (b2 * 2 ^ 16) 24 (by omega)
  have o2 : (b3 * 2 ^ 8 + b2) * 2 ^ 16 ||| b1 * 2 ^ 8 = (b3 * 2 ^ 8 + b2) * 2 ^ 16 + b1 * 2 ^ 8 :=
    or_eq_add (b3 * 2 ^ 8 + b2) (b1 * 2 ^ 8) 16 (by omega)
  have o1 : (b3 * 2 ^ 16 + b2 * 2 ^ 8 + b1) * 2 ^ 8 ||| b0
      = (b3 * 2 ^ 16 + b2 * 2 ^ 8 + b1) * 2 ^ 8 + b0 :=
    or_eq_add (b3 * 2 ^ 16 + b2 * 2 ^ 8 + b1) b0 8 (by omega)
  have a2 : b3 * 2 ^ 24 + b2 * 2 ^ 16 = (b3 * 2 ^ 8 + b2) * 2 ^ 16 := by omega
  have a1 : (b3 * 2 ^ 8 + b2) * 2 ^ 16 + b1 * 2 ^ 8
      = (b3 * 2 ^ 16 + b2 * 2 ^ 8 + b1) * 2 ^ 8 := by omega
  have a0 : (b3 * 2 ^ 16 + b2 * 2 ^ 8 + b1) * 2 ^ 8 + b0
      = b3 * 2 ^ 24 + b2 * 2 ^ 16 + b1 * 2 ^ 8 + b0 := by omega
  have s2 : (b3 * 2 ^ 8 + b2) * 2 ^ 16 % 2 ^ 32 = (b3 * 2 ^ 8 + b2) * 2 ^ 16 := by omega
  have s1 : (b3 * 2 ^ 16 + b2 * 2 ^ 8 + b1) * 2 ^ 8 % 2 ^ 32
      = (b3 * 2 ^ 16 + b2 * 2 ^ 8 + b1) * 2 ^ 8 := by omega
  rw [o3, a2, s2, o2, a1, s1, o1, a0]

/-- The little-endian digits of a 32-bit value give the value back. -/
theorem toInt32_digits (v : Int) (hv : isInt32 v) :
    toInt32 (((v / 2 ^ (3 * 8)) % 256).toNat * 2 ^ 24 + ((v / 2 ^ (2 * 8)) % 256).toNat * 2 ^ 16
      + ((v / 2 ^ (1 * 8)) % 256).toNat * 2 ^ 8 + ((v / 2 ^ (0 * 8)) % 256).toNat) = v := by
  unfold isInt32 at hv
  unfold toInt32
  split <;> omega

theorem digit_lt (v : Int) (k : Nat) : ((v / 2 ^ k) % 256).toNat < 256 := by
  generalize v / 2 ^ k = w
  omega

theorem int32_le_bytes_eq (v : Int) :
    int32_le_bytes v = [((v / 2 ^ (0 * 8)) % 256).toNat, ((v / 2 ^ (1 * 8)) % 256).toNat,
      ((v / 2 ^ (2 * 8)) % 256).toNat, ((v / 2 ^ (3 * 8)) % 256).toNat] := by
  unfold int32_le_bytes toUInt32
  simp only [List.cons.injEq, and_true]
  refine ⟨?_, ?_, ?_, ?_⟩ <;> omega

/-- What `msg_setint32` leaves in the buffer, the closing assertion set aside. -/
theorem setint32_result (m : msg) (v : Int) (hv : isInt32 v) :
    ∃ m1 : msg, msg_setint32 m v = some m1 ∧ m1.len = 4 ∧ msg_bytes m1 = int32_le_bytes v
      ∧ msg_getint32 m1 = v ∧ ∀ i, 4 ≤ i → m1.buf i = m.buf i := by
  have hget : msg_getint32
      { len := 4,
        buf := Function.update (Function.update (Function.update (Function.update m.buf 0
          (toUChar (int32_and (int32_shr v (0 * 8)) 0xFF))) 1
          (toUChar (int32_and (int32_shr v (1 * 8)) 0xFF))) 2
          (toUChar (int32_and (int32_shr v (2 * 8)) 0xFF))) 3
          (toUChar (int32_and (int32_shr v (3 * 8)) 0xFF)) } = v := by
    rw [getint32_eq _ rfl]
    · simp only [Function.update_apply, setint32_byte]
      simpa using toInt32_digits v hv
    all_goals simp only [Function.update_apply, setint32_byte]
    all_goals norm_num
    all_goals omega
  refine ⟨_, ?_, rfl, ?_, hget, ?_⟩
  · unfold msg_setint32
    simp only [hget, if_true]
  · rw [int32_le_bytes_eq]
    simp [msg_bytes, List.range_succ, Function.update_apply, setint32_byte]
  · intro i hi
    have h0 : i ≠ 0 := by omega
    have h1 : i ≠ 1 := by omega
    have h2 : i ≠ 2 := by omega
    have h3 : i ≠ 3 := by omega
    simp [Function.update_apply, h0, h1, h2, h3]

/-! ## Lemmas on the buffer operations -/

theorem memcpy_lt (src : List Nat) :
    ∀ (dst : Nat → Nat) (off i : Nat), i < off → memcpy dst off src i = dst i := by
  induction src with
  | nil => intro dst off i _; rfl
  | cons b bs ih =>
    intro dst off i hi
    have hne : i ≠ off := by omega
    simp only [memcpy]
    rw [ih _ (off + 1) i (by omega)]
    simp [Function.update_apply, hne]

theorem memcpy_ge (src : List Nat) :
    ∀ (dst : Nat → Nat) (off i : Nat), off + src.length ≤ i → memcpy dst off src i = dst i := by
  induction src with
  | nil => intro dst off i _; rfl
  | cons b bs ih =>
    intro dst off i hi
    simp only [List.length_cons] at hi
    have hne : i ≠ off := by omega
    simp only [memcpy]
    rw [ih _ (off + 1) i (by omega)]
    simp [Function.update_apply, hne]

theorem memcpy_get (src : List Nat) :
    ∀ (dst : Nat → Nat) (off k : Nat) (h : k < src.length),
      memcpy dst off src (off + k) = src[k] := by
  induction src with
  | nil => intro dst off k h; simp at h
  | cons b bs ih =>
    intro dst off k h
    simp only [memcpy]
    cases k with
    | zero =>
      rw [memcpy_lt bs _ (off + 1) (off + 0) (by omega)]
      simp
    | succ k1 =>
      simp only [List.length_cons] at h
      have e : off + (k1 + 1) = (off + 1) + k1 := by omega
      rw [e, ih _ (off + 1) k1 (by omega)]
      simp

/-- The bytes in use after a `memcpy` of `src` to the end of the bytes in use. -/
theorem msg_bytes_memcpy (m : msg) (src : List Nat) :
    msg_bytes { len := m.len + src.length, buf := memcpy m.buf m.len src }
      = msg_bytes m ++ src := by
  apply List.ext_getElem
  · simp [msg_bytes]
  · intro i h1 h2
    simp only [msg_bytes, List.getElem_map, List.getElem_range]
    by_cases hi : i < m.len
    · rw [memcpy_lt src _ _ _ hi, List.getElem_append_left (by simpa using hi)]
      simp
    · have hlen : (List.map m.buf (List.range m.len)).length ≤ i := by simpa using hi
      rw [List.getElem_append_right hlen]
      simp only [List.length_map, List.length_range]
      simp only [msg_bytes, List.length_map, List.length_range] at h1
      have e : i = m.len + (i - m.len) := by omega
      have hk : i - m.len < src.length := by omega
      rw [← memcpy_get src m.buf m.len (i - m.len) hk, ← e]

/-- The outcome of `msg_append` on a buffer within capacity. -/
theorem msg_append_cases (m : msg) (buf : List Nat) (hm : m.len ≤ MSG_BUFFER_SIZE) :
    msg_append m buf
      = if MSG_BUFFER_SIZE - m.len < buf.length then some (false, m)
        else some (true, { len := m.len + buf.length, buf := memcpy m.buf m.len buf }) := by
  unfold msg_append msg_len msg_asize
  simp [hm]

/-- With enough fuel the loop of `msg_checksum` adds up, modulo 256, the bytes from
`index` to the last but one. -/
theorem msg_checksum_loop_eq (m : msg) :
    ∀ (fuel index sum : Nat), sum < 256 → m.len - 1 - index ≤ fuel →
      msg_checksum_loop m index sum fuel
        = (sum + ((List.range (m.len - 1 - index)).map (fun k => m.buf (index + k))).sum)
            % 256 := by
  intro fuel
  induction fuel with
  | zero =>
    intro index sum hs hf
    have h0 : m.len - 1 - index = 0 := by omega
    simp only [msg_checksum_loop, h0, List.range_zero, List.map_nil, List.sum_nil]
    omega
  | succ fuel ih =>
    intro index sum hs hf
    simp only [msg_checksum_loop]
    split
    · rename_i hc
      rw [ih (index + 1) ((sum + m.buf index) % 256) (Nat.mod_lt _ (by decide)) (by omega)]
      have hn : m.len - 1 - index = (m.len - 1 - (index + 1)) + 1 := by omega
      rw [hn, List.range_succ_eq_map]
      simp only [List.map_cons, List.map_map, List.sum_cons, Nat.add_zero]
      have hfun : ((fun k => m.buf (index + k)) ∘ Nat.succ)
          = (fun k => m.buf (index + 1 + k)) := by
        funext k
        simp only [Function.comp, Nat.succ_eq_add_one]
        congr 1
        omega
      rw [hfun]
      generalize ((List.range (m.len - 1 - (index + 1))).map
        (fun k => m.buf (index + 1 + k))).sum = rest
      omega
    · rename_i hc
      have h0 : m.len - 1 - index = 0 := by omega
      simp only [h0, List.range_zero, List.map_nil, List.sum_nil]
      omega

theorem msg_checksum_eq (m : msg) :
    msg_checksum m = ((List.range (m.len - 1)).map m.buf).sum % 256 := by
  unfold msg_checksum
  rw [msg_checksum_loop_eq m m.len 0 0 (by decide) (by omega)]
  simp

theorem memcmp_from_eq_zero (s1 s2 : Nat → Nat) :
    ∀ (n i : Nat), memcmp_from s1 s2 i n = 0 ↔ ∀ k, k < n → s1 (i + k) = s2 (i + k) := by
  intro n
  induction n with
  | zero => intro i; simp [memcmp_from]
  | succ n ih =>
    intro i
    simp only [memcmp_from]
    by_cases h : s1 i = s2 i
    · simp only [h, ne_eq, not_true_eq_false, if_false, ih (i + 1)]
      constructor
      · intro hall k hk
        cases k with
        | zero => simpa using h
        | succ k1 =>
          have := hall k1 (by omega)
          have e : i + (k1 + 1) = i + 1 + k1 := by omega
          rw [e]
          exact this
      · intro hall k hk
        have := hall (k + 1) (by omega)
        have e : i + (k + 1) = i + 1 + k := by omega
        rw [← e]
        exact this
    · simp only [ne_eq, h, not_false_eq_true, if_true]
      constructor
      · intro hd
        exfalso
        apply h
        omega
      · intro hall
        exact absurd (by simpa using hall 0 (by omega)) h

theorem memcmp_from_congr (s1 s2 t1 t2 : Nat → Nat) :
    ∀ (n i : Nat), (∀ k, k < n → t1 (i + k) = s1 (i + k) ∧ t2 (i + k) = s2 (i + k)) →
      memcmp_from t1 t2 i n = memcmp_from s1 s2 i n := by
  intro n
  induction n with
  | zero => intro i _; rfl
  | succ n ih =>
    intro i hall
    have h0 := hall 0 (by omega)
    simp only [Nat.add_zero] at h0
    simp only [memcmp_from, h0.1, h0.2]
    rw [ih (i + 1)]
    intro k hk
    have := hall (k + 1) (by omega)
    have e : i + (k + 1) = i + 1 + k := by omega
    rw [← e]
    exact this

theorem size_sub_eq_zero (a b : Nat) (ha : a ≤ MSG_BUFFER_SIZE) (hb : b ≤ MSG_BUFFER_SIZE) :
    size_sub a b = 0 ↔ a = b := by
  unfold size_sub
  unfold MSG_BUFFER_SIZE at ha hb
  omega

theorem size_sub_int_ne_zero (a b : Nat) (ha : a ≤ MSG_BUFFER_SIZE) (hb : b ≤ MSG_BUFFER_SIZE)
    (hne : a ≠ b) : toInt32 (size_sub a b) ≠ 0 := by
  unfold toInt32 size_sub
  unfold MSG_BUFFER_SIZE at ha hb
  split <;> omega

/-! ## Lemmas on the receive loop -/

theorem read_bytes_append (s : DecoderState) (a b : List Nat) :
    read_bytes s (a ++ b)
      = match read_bytes s a with
        | .error e => .error e
        | .ok s1 => read_bytes s1 b := by
  induction a generalizing s with
  | nil => rfl
  | cons x xs ih =>
    simp only [List.cons_append, read_bytes]
    cases decode_byte s x with
    | error e => rfl
    | ok s1 => exact ih s1

/-- However a stream is cut into reads, the `while` loop gives what reading the stream
in one piece gives, provided the payload is not complete before the end of the stream
and the stream ends the loop. -/
theorem recv_loop_chunks (chunks : List (List Nat)) :
    ∀ (s : DecoderState), NotDoneBefore s chunks.flatten → Final (read_bytes s chunks.flatten) →
      recv_loop s (chunks.map ReadResult.data) = read_bytes s chunks.flatten := by
  induction chunks with
  | nil =>
    intro s _ hfin
    simp only [List.flatten_nil, read_bytes, Final] at hfin ⊢
    simp [recv_loop, hfin]
  | cons c cs ih =>
    intro s hnd hfin
    by_cases hlen : msg_len s.currmsg = sizeof_int32
    · have hnil : (c :: cs).flatten = [] := by
        by_contra hne
        exact hnd [] _ s (by simp) hne rfl hlen
      rw [hnil]
      simp [recv_loop, hlen, read_bytes]
    · simp only [List.map_cons, recv_loop, ne_eq, hlen, not_false_eq_true, if_true,
        List.flatten_cons]
      rw [read_bytes_append]
      rw [List.flatten_cons, read_bytes_append] at hfin
      cases hc : read_bytes s c with
      | error e => rfl
      | ok s1 =>
        rw [hc] at hfin
        simp only at hfin ⊢
        apply ih s1 _ hfin
        intro pre suf s2 hsplit hsuf hpre
        apply hnd (c ++ pre) suf s2 _ hsuf
        · rw [read_bytes_append, hc]
          exact hpre
        · rw [List.flatten_cons, hsplit, List.append_assoc]

theorem msg_bytes_length (m : msg) : (msg_bytes m).length = m.len := by
  simp [msg_bytes]

theorem msg_bytes_appendbyte (m : msg) (b : Nat) :
    msg_bytes { len := m.len + 1, buf := Function.update m.buf m.len b } = msg_bytes m ++ [b] := by
  simp only [msg_bytes, List.range_succ, List.map_append, List.map_cons, List.map_nil,
    Function.update_same]
  congr 1
  apply List.map_congr_left
  intro i hi
  have hne : i ≠ m.len := by
    have := List.mem_range.mp hi
    omega
  simp [Function.update_apply, hne]

/-- A payload byte in a marked frame with room left is appended. -/
theorem handle_payload_ok (s : DecoderState) (b : Nat) (hm : s.markedfirstbyte = true)
    (hlen : s.currmsg.len < 4) :
    handle_payload s b
      = .ok { s with currmsg := { len := s.currmsg.len + 1,
                                  buf := Function.update s.currmsg.buf s.currmsg.len b } } := by
  unfold handle_payload msg_appendbyte msg_len msg_asize MSG_BUFFER_SIZE sizeof_int32
  have h1 : s.currmsg.len ≤ 256 := by omega
  have h2 : ¬ (256 - s.currmsg.len < 1) := by omega
  have h3 : ¬ (s.currmsg.len + 1 > 4) := by omega
  simp [hm, h1, h2, h3]

theorem Pending_len (p : List Nat) (hp : p.length = 4) (s : DecoderState) (rest : List Nat)
    (h : Pending p s rest) (hne : rest ≠ []) : s.currmsg.len < 4 := by
  obtain ⟨m, mk, esc⟩ := s
  cases mk <;> cases esc <;> simp only [Pending] at h ⊢
  · omega
  · omega
  · obtain ⟨q, hq, hpq⟩ := h
    have hl := congrArg List.length hpq
    rw [List.length_append, msg_bytes_length, hp] at hl
    cases q with
    | nil => simp [escape_bytes] at hq; exact absurd hq hne
    | cons x xs => simp at hl ⊢; omega
  · obtain ⟨q, hq, hpq⟩ := h
    have hl := congrArg List.length hpq
    rw [List.length_append, msg_bytes_length, hp] at hl
    simp at hl ⊢; omega

theorem Pending_step (p : List Nat) (hp : p.length = 4) (s : DecoderState) (b : Nat)
    (rest : List Nat) (h : Pending p s (b :: rest)) :
    ∃ s1, decode_byte s b = .ok s1 ∧ Pending p s1 rest := by
  have hlen := Pending_len p hp s (b :: rest) h (by simp)
  obtain ⟨m, mk, esc⟩ := s
  cases mk <;> cases esc <;> simp only [Pending] at h
  · obtain ⟨h0, hb⟩ := h
    simp only [List.cons.injEq] at hb
    obtain ⟨rfl, rfl⟩ := hb
    refine ⟨⟨m, false, true⟩, by simp [decode_byte, special_esc], ?_⟩
    simp [Pending, h0]
  · obtain ⟨h0, hb⟩ := h
    simp only [List.cons.injEq] at hb
    obtain ⟨rfl, rfl⟩ := hb
    refine ⟨⟨m, true, false⟩, by simp [decode_byte, special_err], ?_⟩
    simp only [Pending]
    refine ⟨p, rfl, ?_⟩
    have : msg_bytes m = [] := by simp [msg_bytes, h0]
    simp [this]
  · obtain ⟨q, hq, hpq⟩ := h
    cases q with
    | nil => simp [escape_bytes] at hq
    | cons x xs =>
      by_cases hx : x = 0xFF
      · simp only [escape_bytes, hx, if_true, List.cons.injEq] at hq
        obtain ⟨rfl, rfl⟩ := hq
        refine ⟨⟨m, true, true⟩, by simp [decode_byte, special_esc], ?_⟩
        simp only [Pending]
        exact ⟨xs, rfl, by rw [← hpq, hx]⟩
      · simp only [escape_bytes, hx, if_false, List.cons.injEq] at hq
        obtain ⟨rfl, rfl⟩ := hq
        refine ⟨⟨⟨m.len + 1, Function.update m.buf m.len b⟩, true, false⟩, ?_, ?_⟩
        · simp only [decode_byte, special_esc, Bool.false_eq_true, if_false, hx]
          exact handle_payload_ok _ _ rfl hlen
        · simp only [Pending]
          refine ⟨xs, rfl, ?_⟩
          rw [msg_bytes_appendbyte, ← hpq]
          simp
  · obtain ⟨q, hq, hpq⟩ := h
    simp only [List.cons.injEq] at hq
    obtain ⟨rfl, rfl⟩ := hq
    refine ⟨⟨⟨m.len + 1, Function.update m.buf m.len 0xFF⟩, true, false⟩, ?_, ?_⟩
    · simp only [decode_byte, special_err, special_valid, if_true]
      simp only [show ¬ ((255 : Nat) = 0) by decide, if_false]
      exact handle_payload_ok _ _ rfl hlen
    · simp only [Pending]
      refine ⟨q, rfl, ?_⟩
      rw [msg_bytes_appendbyte, ← hpq]
      simp

theorem Pending_run (p : List Nat) (hp : p.length = 4) (pre suf : List Nat) :
    ∀ s : DecoderState, Pending p s (pre ++ suf) →
      ∃ s1, read_bytes s pre = .ok s1 ∧ Pending p s1 suf := by
  induction pre with
  | nil => intro s h; exact ⟨s, rfl, h⟩
  | cons b bs ih =>
    intro s h
    obtain ⟨s1, hs1, hp1⟩ := Pending_step p hp s b (bs ++ suf) h
    obtain ⟨s2, hs2, hp2⟩ := ih s1 hp1
    exact ⟨s2, by simp only [read_bytes, hs1, hs2], hp2⟩

theorem Pending_done (p : List Nat) (hp : p.length = 4) (s : DecoderState)
    (h : Pending p s []) :
    s.currmsg.len = 4 ∧ msg_bytes s.currmsg = p ∧ s.markedfirstbyte = true
      ∧ s.escaped = false := by
  obtain ⟨m, mk, esc⟩ := s
  cases mk <;> cases esc <;> simp only [Pending] at h ⊢
  · simp at h
  · simp at h
  · obtain ⟨q, hq, hpq⟩ := h
    cases q with
    | nil =>
      simp only [List.append_nil] at hpq
      refine ⟨?_, hpq, trivial, trivial⟩
      rw [← msg_bytes_length, hpq, hp]
    | cons x xs =>
      exfalso
      by_cases hx : x = 0xFF <;> simp [escape_bytes, hx] at hq
  · simp at h

theorem Pending_initial (p : List Nat) (m : msg) :
    Pending p (initial_state m) (raw_frame p) := by
  simp [Pending, initial_state, msg_reset, raw_frame]

/-- The frame of a four-byte payload, cut into reads in any way, is decoded to that
payload. -/
theorem decode_frame (p : List Nat) (hp : p.length = 4) (m : msg) (chunks : List (List Nat))
    (hchunks : chunks.flatten = raw_frame p) :
    ∃ s, recv_loop (initial_state m) (chunks.map ReadResult.data) = .ok s
      ∧ s.currmsg.len = 4 ∧ msg_bytes s.currmsg = p ∧ s.markedfirstbyte = true
      ∧ s.escaped = false := by
  have hinit := Pending_initial p m
  obtain ⟨s, hs, hps⟩ := Pending_run p hp (raw_frame p) [] (initial_state m)
    (by simpa using hinit)
  have hdone := Pending_done p hp s hps
  refine ⟨s, ?_, hdone⟩
  rw [recv_loop_chunks chunks (initial_state m), hchunks, hs]
  · intro pre suf s1 hsplit hsuf hpre
    rw [hchunks] at hsplit
    rw [hsplit] at hinit
    obtain ⟨s2, hs2, hp2⟩ := Pending_run p hp pre suf (initial_state m) hinit
    rw [hpre] at hs2
    cases hs2
    have := Pending_len p hp s1 suf hp2 hsuf
    simp only [msg_len, sizeof_int32]
    omega
  · rw [hchunks, hs]
    exact hdone.1

theorem msg_send_succeeds (m : msg) (fd : Line) (env : SendEnv) (h : env.succeeds m.len) :
    ∃ fd1, msg_send m fd env = .ok fd1 := by
  obtain ⟨h1, h2, h3, h4⟩ := h
  have h1n : ¬ env.setmark < 0 := by omega
  have h3n : ¬ env.setspace < 0 := by omega
  unfold msg_send setmark setspace write
  simp only [h1n, h2, h3n, h4, if_false, ne_eq, not_true_eq_false]
  split <;> exact ⟨_, rfl⟩

/-- A four-byte buffer holding the little-endian bytes of `r` decodes to `r`. -/
theorem getint32_of_bytes (m : msg) (r : Int) (hr : isInt32 r) (hlen : m.len = 4)
    (hb : msg_bytes m = int32_le_bytes r) : msg_getint32 m = r := by
  rw [int32_le_bytes_eq] at hb
  simp only [msg_bytes, hlen, List.range_succ, List.range_zero, List.nil_append,
    List.cons_append, List.map_cons, List.map_nil, List.cons.injEq, and_true] at hb
  obtain ⟨h0, h1, h2, h3⟩ := hb
  rw [getint32_eq m hlen, h0, h1, h2, h3]
  · exact toInt32_digits r hr
  · rw [h0]; exact digit_lt r _
  · rw [h1]; exact digit_lt r _
  · rw [h2]; exact digit_lt r _
  · rw [h3]; exact digit_lt r _

theorem int32_le_bytes_length (r : Int) : (int32_le_bytes r).length = 4 := rfl

/-- The run of `main` when both sends succeed and the peer answers with the frame of `r`. -/
theorem main_result (a b r : Int) (ha : isInt32 a) (hb : isInt32 b) (hr : isInt32 r)
    (env : MainEnv) (chunks : List (List Nat))
    (hsig : env.signal_ok = true) (hs1 : env.send1.succeeds 4) (hs2 : env.send2.succeeds 4)
    (hreads : env.reads = chunks.map ReadResult.data)
    (hstream : chunks.flatten = raw_frame (int32_le_bytes r)) :
    main a b env
      = if int32_add a b ≠ r then .error (.sum_mismatch r (int32_add a b)) else .ok r := by
  obtain ⟨m1, hm1, hl1, -, -, -⟩ := setint32_result env.sendbuf a ha
  obtain ⟨m2, hm2, hl2, -, -, -⟩ := setint32_result m1 b hb
  obtain ⟨fd1, hfd1⟩ := msg_send_succeeds m1 env.fd env.send1 (by rw [hl1]; exact hs1)
  obtain ⟨fd2, hfd2⟩ := msg_send_succeeds m2 fd1 env.send2 (by rw [hl2]; exact hs2)
  obtain ⟨s, hs, hlen, hbytes, -, -⟩ :=
    decode_frame (int32_le_bytes r) (int32_le_bytes_length r) env.currmsg chunks hstream
  have hget := getint32_of_bytes s.currmsg r hr hlen hbytes
  unfold initial_state at hs
  unfold main
  simp only [hsig, hm1, hfd1, hm2, hfd2, hreads, hs, hget, Bool.not_true, Bool.false_eq_true,
    if_false]

/-- A buffer of at least one byte, every parity change and write succeeding in full,
goes out whole: byte 0 under mark parity, the bytes after it under space parity, in
order, and nothing else. -/
theorem msg_send_frame (m : msg) (fd : Line) (env : SendEnv) (hlen : 1 ≤ m.len)
    (h : env.succeeds m.len) :
    msg_send m fd env
      = .ok { parity := Parity.space,
              wire := fd.wire ++ (Parity.mark, m.buf 0)
                :: (List.range (m.len - 1)).map (fun i => (Parity.space, m.buf (1 + i))) } := by
  obtain ⟨h1, h2, h3, h4⟩ := h
  have h1n : ¬ env.setmark < 0 := by omega
  have h3n : ¬ env.setspace < 0 := by omega
  unfold msg_send setmark setspace write
  simp only [h1n, h2, h3n, h4, if_false, ne_eq, not_true_eq_false]
  split
  · simp [List.take_of_length_le]
  · have h0 : m.len - 1 = 0 := by omega
    simp [h0]

/-! ## Lemmas on failing streams -/

theorem handle_payload_len (s s1 : DecoderState) (b : Nat) (h : handle_payload s b = .ok s1) :
    s.currmsg.len ≤ s1.currmsg.len ∧ s1.currmsg.len ≤ 4 ∧ s.markedfirstbyte = true
      ∧ s1.markedfirstbyte = true ∧ s1.escaped = s.escaped := by
  unfold handle_payload msg_appendbyte msg_len msg_asize MSG_BUFFER_SIZE sizeof_int32 at h
  cases hm : s.markedfirstbyte
  · simp [hm] at h
  · simp only [hm, Bool.not_true, Bool.false_eq_true, if_false] at h
    split at h
    · simp at h
    · rename_i r ok m1 heq
      split at heq
      · simp at heq
      · split at heq
        · simp only [Option.some.injEq, Prod.mk.injEq] at heq
          obtain ⟨-, rfl⟩ := heq
          split at h
          · simp at h
          · simp only [Except.ok.injEq] at h
            subst h
            simp only [gt_iff_lt, not_lt] at *
            simp_all
        · simp only [Option.some.injEq, Prod.mk.injEq] at heq
          obtain ⟨-, rfl⟩ := heq
          split at h
          · simp at h
          · simp only [Except.ok.injEq] at h
            subst h
            simp only [gt_iff_lt, not_lt] at *
            simp_all

theorem decode_byte_len (s s1 : DecoderState) (b : Nat) (h : decode_byte s b = .ok s1) :
    s.currmsg.len ≤ s1.currmsg.len := by
  unfold decode_byte at h
  split at h
  · split at h
    · split at h
      · simp at h
      · simp only [Except.ok.injEq] at h
        subst h
        exact Nat.le_refl _
    · split at h
      · exact (handle_payload_len _ _ _ h).1
      · simp at h
  · split at h
    · simp only [Except.ok.injEq] at h
      subst h
      exact Nat.le_refl _
    · exact (handle_payload_len _ _ _ h).1

theorem read_bytes_len (bs : List Nat) :
    ∀ s s1 : DecoderState, read_bytes s bs = .ok s1 → s.currmsg.len ≤ s1.currmsg.len := by
  induction bs with
  | nil =>
    intro s s1 h
    simp only [read_bytes, Except.ok.injEq] at h
    subst h
    exact Nat.le_refl _
  | cons b rest ih =>
    intro s s1 h
    simp only [read_bytes] at h
    cases hb : decode_byte s b with
    | error e => rw [hb] at h; simp at h
    | ok s2 =>
      rw [hb] at h
      exact Nat.le_trans (decode_byte_len s s2 b hb) (ih s2 s1 h)

/-- While no start marker has been seen nothing is appended: a step that ends with
`markedfirstbyte` false started with it false and left the buffer as it was. -/
theorem decode_byte_unmarked (s s1 : DecoderState) (b : Nat) (h : decode_byte s b = .ok s1)
    (hm : s1.markedfirstbyte = false) :
    s.markedfirstbyte = false ∧ s1.currmsg = s.currmsg := by
  unfold decode_byte at h
  split at h
  · split at h
    · split at h
      · simp at h
      · simp only [Except.ok.injEq] at h
        subst h
        simp at hm
    · split at h
      · have := (handle_payload_len _ _ _ h).2.2.2.1
        rw [this] at hm
        simp at hm
      · simp at h
  · split at h
    · simp only [Except.ok.injEq] at h
      subst h
      exact ⟨hm, rfl⟩
    · have := (handle_payload_len _ _ _ h).2.2.2.1
      rw [this] at hm
      simp at hm

theorem read_bytes_unmarked (bs : List Nat) :
    ∀ s s1 : DecoderState, read_bytes s bs = .ok s1 → s1.markedfirstbyte = false →
      s.markedfirstbyte = false ∧ s1.currmsg = s.currmsg := by
  induction bs with
  | nil =>
    intro s s1 h hm
    simp only [read_bytes, Except.ok.injEq] at h
    subst h
    exact ⟨hm, rfl⟩
  | cons b rest ih =>
    intro s s1 h hm
    simp only [read_bytes] at h
    cases hb : decode_byte s b with
    | error e => rw [hb] at h; simp at h
    | ok s2 =>
      rw [hb] at h
      obtain ⟨hm2, hc2⟩ := ih s2 s1 h hm
      obtain ⟨hm0, hc0⟩ := decode_byte_unmarked s s2 b hb hm2
      exact ⟨hm0, hc2.trans hc0⟩

/-- A raw byte on which the decoder fails, reached with fewer than four payload bytes
in the buffer, ends the receive loop with that failure however the stream is cut into
reads, whatever follows the byte. -/
theorem recv_loop_fails (s s1 : DecoderState) (pre : List Nat) (b : Nat) (rest : List Nat)
    (e : Failure × DecoderState) (hpre : read_bytes s pre = .ok s1)
    (hlen : s1.currmsg.len < 4) (hb : decode_byte s1 b = .error e)
    (chunks : List (List Nat)) (hchunks : chunks.flatten = pre ++ b :: rest) :
    recv_loop s (chunks.map ReadResult.data) = .error e := by
  have hall : read_bytes s (pre ++ b :: rest) = .error e := by
    rw [read_bytes_append, hpre]
    simp only [read_bytes, hb]
  rw [recv_loop_chunks chunks s, hchunks, hall]
  · intro pre1 suf s2 hsplit hsuf hpre1
    rw [hchunks] at hsplit
    have hle : s2.currmsg.len ≤ s1.currmsg.len := by
      rcases List.append_eq_append_iff.mp hsplit with ⟨a1, h1, h2⟩ | ⟨c1, h1, h2⟩
      · subst h1
        rw [read_bytes_append, hpre] at hpre1
        cases a1 with
        | nil =>
          simp only [read_bytes, Except.ok.injEq] at hpre1
          rw [hpre1]
        | cons x xs =>
          simp only [List.cons_append, List.cons.injEq] at h2
          rw [← h2.1] at hpre1
          simp [read_bytes, hb] at hpre1
      · subst h1
        rw [read_bytes_append, hpre1] at hpre
        exact read_bytes_len c1 s2 s1 hpre
    simp only [msg_len, sizeof_int32]
    omega
  · rw [hchunks, hall]
    trivial

/-- A payload byte goes to the tail of the loop body with the escape flag down. -/
theorem decode_byte_payload (s : DecoderState) (b : Nat) (hb : is_payload_byte s b) :
    decode_byte s b = handle_payload { s with escaped := false } b := by
  obtain ⟨m, mk, esc⟩ := s
  rcases hb with ⟨he, hne⟩ | ⟨he, hff⟩
  · simp only at he
    subst he
    simp [decode_byte, special_esc, hne]
  · simp only at he
    subst he
    subst hff
    simp [decode_byte, special_err, special_valid]

/-- The `while` loop only ends without failure on a buffer of four bytes. -/
theorem recv_loop_ok_len (reads : List ReadResult) :
    ∀ s s1 : DecoderState, recv_loop s reads = .ok s1 → msg_len s1.currmsg = sizeof_int32 := by
  induction reads with
  | nil =>
    intro s s1 h
    unfold recv_loop at h
    split at h
    · simp at h
    · rename_i hlen
      simp only [Except.ok.injEq] at h
      subst h
      simpa using hlen
  | cons r reads ih =>
    intro s s1 h
    unfold recv_loop at h
    split at h
    · split at h
      · simp at h
      · split at h
        · simp at h
        · exact ih _ s1 h
    · rename_i hlen
      simp only [Except.ok.injEq] at h
      subst h
      simpa using hlen

/-- Once the `while` loop has ended without failure, reads that would follow are
never made. -/
theorem recv_loop_append_ok (r1 r2 : List ReadResult) :
    ∀ s s1 : DecoderState, recv_loop s r1 = .ok s1 → recv_loop s (r1 ++ r2) = .ok s1 := by
  induction r1 with
  | nil =>
    intro s s1 h
    have hlen := recv_loop_ok_len [] s s1 h
    unfold recv_loop at h
    split at h
    · simp at h
    · simp only [Except.ok.injEq] at h
      subst h
      cases r2 with
      | nil => simp [recv_loop, hlen]
      | cons r rest => simp [recv_loop, hlen]
  | cons r reads ih =>
    intro s s1 h
    by_cases hne : msg_len s.currmsg = sizeof_int32
    · simp only [recv_loop, hne, ne_eq, not_true_eq_false, if_false] at h
      simp only [List.cons_append, recv_loop, hne, ne_eq, not_true_eq_false, if_false]
      exact h
    · simp only [recv_loop, hne, ne_eq, not_false_eq_true, if_true] at h
      simp only [List.cons_append, recv_loop, hne, ne_eq, not_false_eq_true, if_true]
      cases r with
      | failed => simp at h
      | data bytes =>
        simp only at h ⊢
        cases hb : read_bytes s bytes with
        | error e => rw [hb] at h; simp at h
        | ok s2 =>
          rw [hb] at h
          exact ih s2 s1 h

/-- The read that leaves four bytes in the buffer, all its bytes processed without
failure, ends the `while` loop. -/
theorem recv_loop_completing_read (s s1 : DecoderState) (c : List Nat)
    (later : List ReadResult) (hs : msg_len s.currmsg ≠ sizeof_int32)
    (hc : read_bytes s c = .ok s1) (h4 : msg_len s1.currmsg = sizeof_int32) :
    recv_loop s (ReadResult.data c :: later) = .ok s1 := by
  unfold recv_loop
  simp only [hs, ne_eq, not_false_eq_true, if_true, hc]
  cases later with
  | nil => simp [recv_loop, h4]
  | cons r rest => simp [recv_loop, h4]

/-- A step of the decoder that goes on leaves at most four bytes in the buffer, and no
step from a buffer within capacity trips the assertion of `msg_appendbyte`. -/
theorem decode_byte_le4 (s : DecoderState) (b : Nat) (hs : s.currmsg.len ≤ 4) :
    (∀ s1, decode_byte s b = .ok s1 → s1.currmsg.len ≤ 4)
    ∧ (∀ sx, decode_byte s b ≠ .error (.assertion, sx)) := by
  have hpay : ∀ t : DecoderState, t.currmsg = s.currmsg →
      (∀ sx, handle_payload t b ≠ .error (.assertion, sx)) := by
    intro t ht sx
    unfold handle_payload msg_appendbyte msg_len msg_asize MSG_BUFFER_SIZE
    have h1 : t.currmsg.len ≤ 256 := by rw [ht]; omega
    have h2 : ¬ (256 - t.currmsg.len < 1) := by rw [ht]; omega
    simp only [h1, not_true_eq_false, if_false, h2]
    split
    · simp
    · split <;> simp
  constructor
  · intro s1 h
    unfold decode_byte at h
    split at h
    · split at h
      · split at h
        · simp at h
        · simp only [Except.ok.injEq] at h
          subst h
          exact hs
      · split at h
        · exact (handle_payload_len _ _ _ h).2.1
        · simp at h
    · split at h
      · simp only [Except.ok.injEq] at h
        subst h
        exact hs
      · exact (handle_payload_len _ _ _ h).2.1
  · intro sx
    unfold decode_byte
    split
    · split
      · split <;> simp
      · split
        · exact hpay { s with escaped := false } rfl sx
        · simp
    · split
      · simp
      · exact hpay s rfl sx

theorem read_bytes_le4 (bs : List Nat) :
    ∀ s : DecoderState, s.currmsg.len ≤ 4 →
      (∀ s1, read_bytes s bs = .ok s1 → s1.currmsg.len ≤ 4)
      ∧ (∀ sx, read_bytes s bs ≠ .error (.assertion, sx)) := by
  induction bs with
  | nil =>
    intro s hs
    constructor
    · intro s1 h
      simp only [read_bytes, Except.ok.injEq] at h
      subst h
      exact hs
    · intro sx
      simp [read_bytes]
  | cons b rest ih =>
    intro s hs
    have hstep := decode_byte_le4 s b hs
    simp only [read_bytes]
    cases hb : decode_byte s b with
    | error e =>
      constructor
      · intro s1 h
        simp at h
      · intro sx h
        simp only [Except.error.injEq] at h
        exact hstep.2 sx (by rw [hb, h])
    | ok s2 =>
      exact ih s2 (hstep.1 s2 hb)

theorem recv_loop_no_assertion (reads : List ReadResult) :
    ∀ s : DecoderState, s.currmsg.len ≤ 4 →
      ∀ sx, recv_loop s reads ≠ .error (.assertion, sx) := by
  induction reads with
  | nil =>
    intro s _ sx
    unfold recv_loop
    split <;> simp
  | cons r reads ih =>
    intro s hs sx
    unfold recv_loop
    split
    · cases r with
      | failed => simp
      | data bytes =>
        simp only
        cases hb : read_bytes s bytes with
        | error e =>
          simp only
          intro h
          simp only [Except.error.injEq] at h
          exact (read_bytes_le4 bytes s hs).2 sx (by rw [hb, h])
        | ok s2 =>
          exact ih s2 ((read_bytes_le4 bytes s hs).1 s2 hb) sx
    · simp

/-- The last byte of a stream, met with fewer than four payload bytes in the buffer,
that fails or completes the payload decides the outcome however the stream is cut into
reads. -/
theorem recv_loop_last (s s1 : DecoderState) (pre : List Nat) (b : Nat)
    (hpre : read_bytes s pre = .ok s1) (hlen : s1.currmsg.len < 4)
    (hfin : Final (decode_byte s1 b)) (chunks : List (List Nat))
    (hchunks : chunks.flatten = pre ++ [b]) :
    recv_loop s (chunks.map ReadResult.data) = decode_byte s1 b := by
  have hall : read_bytes s (pre ++ [b]) = decode_byte s1 b := by
    rw [read_bytes_append, hpre]
    simp only [read_bytes]
    cases decode_byte s1 b <;> rfl
  rw [recv_loop_chunks chunks s, hchunks, hall]
  · intro pre1 suf s2 hsplit hsuf hpre1
    rw [hchunks] at hsplit
    have hle : s2.currmsg.len ≤ s1.currmsg.len := by
      rcases List.append_eq_append_iff.mp hsplit with ⟨a1, h1, h2⟩ | ⟨c1, h1, h2⟩
      · subst h1
        cases a1 with
        | nil =>
          rw [List.append_nil, hpre] at hpre1
          simp only [Except.ok.injEq] at hpre1
          rw [hpre1]
        | cons x xs =>
          simp only [List.cons_append, List.cons.injEq] at h2
          have hnil := h2.2
          have : suf = [] := by
            cases xs with
            | nil => simpa using hnil.symm
            | cons y ys => simp at hnil
          exact absurd this hsuf
      · subst h1
        rw [read_bytes_append, hpre1] at hpre
        exact read_bytes_len c1 s2 s1 hpre
    simp only [msg_len, sizeof_int32]
    omega
  · rw [hchunks, hall]
    exact hfin

/-! ## The claims -/

/-- C1. Int32 round trip: for every signed 32-bit value `v` and every starting buffer,
`msg_setint32` returns (its closing assertion does not fire), the buffer then has
length 4 and holds the four little-endian bytes of `v`, and `msg_getint32` on it gives
back exactly `v`. -/
theorem C1_int32_round_trip (m : msg) (v : Int) (hv : isInt32 v) :
    ∃ m1, msg_setint32 m v = some m1 ∧ msg_len m1 = 4 ∧ msg_bytes m1 = int32_le_bytes v
      ∧ msg_getint32 m1 = v := by
  obtain ⟨m1, h1, h2, h3, h4, -⟩ := setint32_result m v hv
  exact ⟨m1, h1, h2, h3, h4⟩

theorem C1_int32_round_trip_witness :
    isInt32 (-2) ∧ ∃ m1, msg_setint32 msg_zero (-2) = some m1 ∧ msg_len m1 = 4
      ∧ msg_bytes m1 = int32_le_bytes (-2) ∧ msg_getint32 m1 = -2 :=
  ⟨by decide, C1_int32_round_trip msg_zero (-2) (by decide)⟩

/-- C2. The decoder undoes the parity-marking encoding: for every 4-byte payload `p`,
the raw stream `0xFF 0x00` followed by `p` with every `0xFF` doubled, delivered from an
empty buffer with both flags false in reads of at most 4 bytes cut anywhere, ends the
receive loop without error with the buffer equal to `p` (length 4) and
`markedfirstbyte = true`. -/
theorem C2_decoder_undoes_encoding (p : List Nat) (hp : p.length = 4) (m : msg)
    (chunks : List (List Nat)) (hstream : chunks.flatten = raw_frame p)
    (_hread : ∀ c ∈ chunks, c.length ≤ sizeof_int32) :
    ∃ s, recv_loop (initial_state m) (chunks.map ReadResult.data) = .ok s
      ∧ msg_len s.currmsg = 4 ∧ msg_bytes s.currmsg = p ∧ s.markedfirstbyte = true := by
  obtain ⟨s, h1, h2, h3, h4, -⟩ := decode_frame p hp m chunks hstream
  exact ⟨s, h1, h2, h3, h4⟩

theorem C2_decoder_undoes_encoding_witness :
    (∃ s, recv_loop (initial_state msg_zero)
        ([[0xFF, 0x00, 0x11, 0x22], [0x33, 0x44]].map ReadResult.data) = .ok s
      ∧ msg_len s.currmsg = 4 ∧ msg_bytes s.currmsg = [0x11, 0x22, 0x33, 0x44]
      ∧ s.markedfirstbyte = true)
    ∧ (∃ s, recv_loop (initial_state msg_zero)
        ([[0xFF, 0x00, 0xFF], [0xFF, 0x22, 0x33, 0x44]].map ReadResult.data) = .ok s
      ∧ msg_len s.currmsg = 4 ∧ msg_bytes s.currmsg = [0xFF, 0x22, 0x33, 0x44]
      ∧ s.markedfirstbyte = true) :=
  ⟨C2_decoder_undoes_encoding [0x11, 0x22, 0x33, 0x44] rfl msg_zero
      [[0xFF, 0x00, 0x11, 0x22], [0x33, 0x44]] (by decide) (by decide),
    C2_decoder_undoes_encoding [0xFF, 0x22, 0x33, 0x44] rfl msg_zero
      [[0xFF, 0x00, 0xFF], [0xFF, 0x22, 0x33, 0x44]] (by decide) (by decide)⟩

/-- C3. End-to-end verification: for all signed 32-bit operands `a` and `b`, with the
expected sum the wrapping 32-bit sum of `a` and `b`, when both sends succeed and the
response stream is the start marker followed by the escaped little-endian bytes of a
32-bit value `r` (in reads of at most 4 bytes cut anywhere), `main` succeeds if and only
if `r` is the expected sum, and when `r` differs it ends with the verification failure
naming both values. -/
theorem C3_end_to_end (a b r : Int) (ha : isInt32 a) (hb : isInt32 b) (hr : isInt32 r)
    (env : MainEnv) (chunks : List (List Nat))
    (hsig : env.signal_ok = true) (hs1 : env.send1.succeeds 4) (hs2 : env.send2.succeeds 4)
    (hreads : env.reads = chunks.map ReadResult.data)
    (hstream : chunks.flatten = raw_frame (int32_le_bytes r))
    (_hread : ∀ c ∈ chunks, c.length ≤ sizeof_int32) :
    (isInt32 (int32_add a b) ∧ (int32_add a b - (a + b)) % 2 ^ 32 = 0)
      ∧ ((main a b env).isOk = true ↔ r = int32_add a b)
      ∧ (r = int32_add a b → main a b env = .ok r)
      ∧ (r ≠ int32_add a b →
          main a b env = .error (.sum_mismatch r (int32_add a b))
          ∧ (Failure.sum_mismatch r (int32_add a b)).isVerificationError = true) := by
  have hmain := main_result a b r ha hb hr env chunks hsig hs1 hs2 hreads hstream
  refine ⟨?_, ?_, ?_, ?_⟩
  · unfold int32_add toInt32 toUInt32 isInt32
    split <;> omega
  · by_cases h : int32_add a b = r
    · simp [hmain, h, Except.isOk, Except.toBool]
    · have h2 : ¬ r = int32_add a b := fun e => h e.symm
      simp [hmain, h, h2, Except.isOk, Except.toBool]
  · intro h
    simp [hmain, h]
  · intro h
    have h2 : ¬ int32_add a b = r := fun e => h e.symm
    simp [hmain, h2, Failure.isVerificationError]

theorem C3_end_to_end_witness :
    main 5 7 (quiet_env ([[0xFF, 0x00, 0x0C, 0x00], [0x00, 0x00]].map ReadResult.data)) = .ok 12
    ∧ main 5 7 (quiet_env ([[0xFF, 0x00, 0x0D, 0x00], [0x00, 0x00]].map ReadResult.data))
        = .error (.sum_mismatch 13 12) :=
  ⟨(C3_end_to_end 5 7 12 (by decide) (by decide) (by decide)
      (quiet_env ([[0xFF, 0x00, 0x0C, 0x00], [0x00, 0x00]].map ReadResult.data))
      [[0xFF, 0x00, 0x0C, 0x00], [0x00, 0x00]] rfl (by decide) (by decide) rfl (by decide)
      (by decide)).2.2.1 (by decide),
    ((C3_end_to_end 5 7 13 (by decide) (by decide) (by decide)
      (quiet_env ([[0xFF, 0x00, 0x0D, 0x00], [0x00, 0x00]].map ReadResult.data))
      [[0xFF, 0x00, 0x0D, 0x00], [0x00, 0x00]] rfl (by decide) (by decide) rfl (by decide)
      (by decide)).2.2.2 (by decide)).1⟩

/-- C4. Data before the start marker is rejected: whenever a payload byte (an ordinary
byte other than `0xFF`, or the second byte of an escaped literal `0xFF 0xFF`) is reached
while `markedfirstbyte` is still false, the receive loop fails with the protocol error
"invalid parity for first byte", and the buffer at that moment is still the empty buffer
the loop started with; in particular every stream whose first byte is not `0xFF` fails
on that first byte, with the loop variables as they were at the start. -/
theorem C4_data_before_marker (m : msg) :
    (∀ (pre : List Nat) (b : Nat) (rest : List Nat) (s1 : DecoderState)
        (chunks : List (List Nat)),
        read_bytes (initial_state m) pre = .ok s1 → s1.markedfirstbyte = false →
        is_payload_byte s1 b → chunks.flatten = pre ++ b :: rest →
        recv_loop (initial_state m) (chunks.map ReadResult.data)
            = .error (.parity_first, { s1 with escaped := false })
          ∧ s1.currmsg = msg_reset m ∧ msg_bytes s1.currmsg = []
          ∧ Failure.parity_first.isProtocolError = true)
    ∧ (∀ (b : Nat) (rest : List Nat) (chunks : List (List Nat)),
        b ≠ 0xFF → chunks.flatten = b :: rest →
        recv_loop (initial_state m) (chunks.map ReadResult.data)
          = .error (.parity_first, initial_state m)) := by
  have key : ∀ (pre : List Nat) (b : Nat) (rest : List Nat) (s1 : DecoderState)
      (chunks : List (List Nat)),
      read_bytes (initial_state m) pre = .ok s1 → s1.markedfirstbyte = false →
      is_payload_byte s1 b → chunks.flatten = pre ++ b :: rest →
      recv_loop (initial_state m) (chunks.map ReadResult.data)
          = .error (.parity_first, { s1 with escaped := false })
        ∧ s1.currmsg = msg_reset m ∧ msg_bytes s1.currmsg = [] := by
    intro pre b rest s1 chunks hpre hm hb hchunks
    have hcur : s1.currmsg = msg_reset m :=
      (read_bytes_unmarked pre (initial_state m) s1 hpre hm).2
    have hlen : s1.currmsg.len < 4 := by
      rw [hcur]
      simp [msg_reset]
    have hstep : decode_byte s1 b = .error (.parity_first, { s1 with escaped := false }) := by
      rw [decode_byte_payload s1 b hb]
      simp [handle_payload, hm]
    refine ⟨recv_loop_fails (initial_state m) s1 pre b rest _ hpre hlen hstep chunks hchunks,
      hcur, ?_⟩
    rw [hcur]
    simp [msg_bytes, msg_reset]
  refine ⟨fun pre b rest s1 chunks h1 h2 h3 h4 =>
    ⟨(key pre b rest s1 chunks h1 h2 h3 h4).1, (key pre b rest s1 chunks h1 h2 h3 h4).2.1,
      (key pre b rest s1 chunks h1 h2 h3 h4).2.2, rfl⟩, ?_⟩
  intro b rest chunks hb hchunks
  have h := (key [] b rest (initial_state m) chunks rfl rfl (Or.inl ⟨rfl, hb⟩)
    (by simpa using hchunks)).1
  simpa [initial_state] using h

theorem C4_data_before_marker_witness :
    recv_loop (initial_state msg_zero) ([[0x11, 0x22, 0x33, 0x44]].map ReadResult.data)
      = .error (.parity_first, initial_state msg_zero)
    ∧ recv_loop (initial_state msg_zero) ([[0xFF], [0xFF, 0x22]].map ReadResult.data)
      = .error (.parity_first, initial_state msg_zero) :=
  ⟨(C4_data_before_marker msg_zero).2 0x11 [0x22, 0x33, 0x44] [[0x11, 0x22, 0x33, 0x44]]
      (by decide) rfl,
    ((C4_data_before_marker msg_zero).1 [0xFF] 0xFF [0x22]
      { currmsg := msg_reset msg_zero, markedfirstbyte := false, escaped := true }
      [[0xFF], [0xFF, 0x22]] rfl rfl (by decide) rfl).1⟩

/-- C5. At most one start marker per frame: whenever a second escape pair `0xFF 0x00`
is met after `markedfirstbyte` has become true, outside an escape and with fewer than
four payload bytes in the buffer, the receive loop fails with the protocol error
"invalid parity for non-first byte" at that second marker, however the stream is cut
into reads and whatever follows the marker. -/
theorem C5_second_marker (m : msg) (pre rest : List Nat) (s1 : DecoderState)
    (chunks : List (List Nat)) (hpre : read_bytes (initial_state m) pre = .ok s1)
    (hm : s1.markedfirstbyte = true) (hesc : s1.escaped = false)
    (hlen : msg_len s1.currmsg < sizeof_int32)
    (hchunks : chunks.flatten = pre ++ 0xFF :: 0x00 :: rest) :
    recv_loop (initial_state m) (chunks.map ReadResult.data)
        = .error (.parity_nonfirst, { s1 with escaped := true })
      ∧ Failure.parity_nonfirst.isProtocolError = true := by
  refine ⟨?_, rfl⟩
  have h1 : read_bytes (initial_state m) (pre ++ [0xFF]) = .ok { s1 with escaped := true } := by
    rw [read_bytes_append, hpre]
    simp [read_bytes, decode_byte, hesc, special_esc]
  have h2 : decode_byte { s1 with escaped := true } 0x00
      = .error (.parity_nonfirst, { s1 with escaped := true }) := by
    simp [decode_byte, special_err, hm]
  exact recv_loop_fails (initial_state m) _ (pre ++ [0xFF]) 0x00 rest _ h1 hlen h2 chunks
    (by simpa using hchunks)

theorem C5_second_marker_witness :
    recv_loop (initial_state msg_zero)
        ([[0xFF, 0x00, 0x11, 0xFF], [0x00, 0x22, 0x33, 0x44]].map ReadResult.data)
      = .error (.parity_nonfirst,
          { currmsg := { len := 1, buf := Function.update msg_zero.buf 0 0x11 },
            markedfirstbyte := true, escaped := true }) :=
  (C5_second_marker msg_zero [0xFF, 0x00, 0x11] [0x22, 0x33, 0x44]
    { currmsg := { len := 1, buf := Function.update msg_zero.buf 0 0x11 },
      markedfirstbyte := true, escaped := false }
    [[0xFF, 0x00, 0x11, 0xFF], [0x00, 0x22, 0x33, 0x44]] rfl rfl rfl (by decide)
    (by decide)).1

/-- C6. Bad escape code: in the escaped state a raw byte that is neither `0x00` nor
`0xFF` makes the decoder fail with the protocol error "bad escape code" (the loop
variables untouched); conversely `0x00` and `0xFF` never fail for this reason, and
whenever the decoder goes on after one of them the escaped flag is cleared: `0x00`
before any marker sets `markedfirstbyte` and clears the flag, and after `0xFF` the flag
is down even when the payload handling that follows fails. -/
theorem C6_bad_escape (s : DecoderState) (b : Nat) (hesc : s.escaped = true) :
    (b ≠ 0x00 → b ≠ 0xFF →
        decode_byte s b = .error (.bad_escape b, s)
          ∧ (Failure.bad_escape b).isProtocolError = true)
    ∧ (b = 0x00 ∨ b = 0xFF →
        (∀ c sx, decode_byte s b ≠ .error (.bad_escape c, sx))
          ∧ (∀ s1, decode_byte s b = .ok s1 → s1.escaped = false))
    ∧ (b = 0x00 → s.markedfirstbyte = false →
        decode_byte s b = .ok { s with markedfirstbyte := true, escaped := false })
    ∧ (b = 0xFF → ∀ e sx, decode_byte s b = .error (e, sx) → sx.escaped = false) := by
  have hFF : decode_byte s 0xFF = handle_payload { s with escaped := false } 0xFF :=
    decode_byte_payload s 0xFF (Or.inr ⟨hesc, rfl⟩)
  have hpay : ∀ (r : Decoded), handle_payload { s with escaped := false } 0xFF = r →
      (∀ c sx, r ≠ .error (.bad_escape c, sx)) ∧ (∀ s1, r = .ok s1 → s1.escaped = false)
        ∧ (∀ e sx, r = .error (e, sx) → sx.escaped = false) := by
    intro r hr
    subst hr
    unfold handle_payload
    split
    · simp
    · split
      · simp
      · simp only
        split
        · simp
        · refine ⟨by simp, ?_, by simp⟩
          intro s1 h
          simp only [Except.ok.injEq] at h
          subst h
          rfl
  refine ⟨?_, ?_, ?_, ?_⟩
  · intro h0 hff
    refine ⟨?_, rfl⟩
    simp [decode_byte, hesc, special_err, special_valid, h0, hff]
  · intro hb
    rcases hb with rfl | rfl
    · constructor
      · intro c sx h
        unfold decode_byte at h
        simp only [hesc, special_err, if_true] at h
        split at h <;> simp at h
      · intro s1 h
        unfold decode_byte at h
        simp only [hesc, special_err, if_true] at h
        split at h
        · simp at h
        · simp only [Except.ok.injEq] at h
          subst h
          rfl
    · rw [hFF]
      exact ⟨(hpay _ rfl).1, (hpay _ rfl).2.1⟩
  · intro h0 hm
    subst h0
    simp [decode_byte, hesc, special_err, hm]
  · intro hb e sx h
    subst hb
    rw [hFF] at h
    exact (hpay _ rfl).2.2 e sx h

theorem C6_bad_escape_witness :
    decode_byte { currmsg := msg_zero, markedfirstbyte := true, escaped := true } 0x41
      = .error (.bad_escape 0x41,
          { currmsg := msg_zero, markedfirstbyte := true, escaped := true }) :=
  ((C6_bad_escape { currmsg := msg_zero, markedfirstbyte := true, escaped := true } 0x41 rfl).1
    (by decide) (by decide)).1

/-- C7. Payload length overrun is an error: whenever a payload byte is handled while
the buffer already holds 4 bytes the decoder fails with a protocol error, which after
the start marker is "too many bytes", raised with the fifth byte appended;
consequently the receive loop never ends without failure on a buffer whose length is
different from 4. -/
theorem C7_length_overrun :
    (∀ (s : DecoderState) (b : Nat), msg_len s.currmsg = 4 → is_payload_byte s b →
        (s.markedfirstbyte = true →
          decode_byte s b = .error (.too_many_bytes,
            { currmsg := { len := 5, buf := Function.update s.currmsg.buf 4 b },
              markedfirstbyte := true, escaped := false }))
        ∧ ∃ e sx, decode_byte s b = .error (e, sx) ∧ e.isProtocolError = true)
    ∧ (∀ (s : DecoderState) (reads : List ReadResult) (s1 : DecoderState),
        recv_loop s reads = .ok s1 → msg_len s1.currmsg = 4) := by
  refine ⟨?_, fun s reads s1 h => recv_loop_ok_len reads s s1 h⟩
  intro s b hlen hb
  have hstep := decode_byte_payload s b hb
  have hlen4 : s.currmsg.len = 4 := hlen
  have hmarked : s.markedfirstbyte = true →
      decode_byte s b = .error (.too_many_bytes,
        { currmsg := { len := 5, buf := Function.update s.currmsg.buf 4 b },
          markedfirstbyte := true, escaped := false }) := by
    intro hm
    rw [hstep]
    simp [handle_payload, msg_appendbyte, msg_len, msg_asize, MSG_BUFFER_SIZE, sizeof_int32,
      hm, hlen4]
  refine ⟨hmarked, ?_⟩
  cases hm : s.markedfirstbyte
  · exact ⟨.parity_first, { s with escaped := false },
      by rw [hstep]; simp [handle_payload, hm], rfl⟩
  · exact ⟨_, _, hmarked hm, rfl⟩

theorem C7_length_overrun_witness :
    decode_byte
        { currmsg := { len := 4, buf := msg_zero.buf }, markedfirstbyte := true, escaped := false }
        0x55
      = .error (.too_many_bytes,
          { currmsg := { len := 5, buf := Function.update msg_zero.buf 4 0x55 },
            markedfirstbyte := true, escaped := false }) :=
  (C7_length_overrun.1
    { currmsg := { len := 4, buf := msg_zero.buf }, markedfirstbyte := true, escaped := false }
    0x55 rfl (by decide)).1 rfl

/-- C8. Contract of `msg_append`: on a buffer with length at most 256 and an input of
`count` bytes it returns true if and only if `256 - length >= count`; on failure the
buffer is unchanged; on success the new length is `length + count`, the bytes before
`length` are unchanged, the bytes from `length` on are the input bytes in order (so the
bytes in use are the old ones followed by the input), and the bytes beyond are
unchanged. -/
theorem C8_msg_append_contract (m : msg) (buf : List Nat) (hm : m.len ≤ MSG_BUFFER_SIZE) :
    ∃ ok m1, msg_append m buf = some (ok, m1)
      ∧ (ok = true ↔ MSG_BUFFER_SIZE - m.len ≥ buf.length)
      ∧ (ok = false → m1 = m)
      ∧ (ok = true →
          m1.len = m.len + buf.length
          ∧ (∀ i, i < m.len → m1.buf i = m.buf i)
          ∧ (∀ k (h : k < buf.length), m1.buf (m.len + k) = buf[k])
          ∧ (∀ i, m.len + buf.length ≤ i → m1.buf i = m.buf i)
          ∧ msg_bytes m1 = msg_bytes m ++ buf) := by
  rw [msg_append_cases m buf hm]
  by_cases h : MSG_BUFFER_SIZE - m.len < buf.length
  · refine ⟨false, m, by simp [h], ?_, fun _ => rfl, ?_⟩
    · simp only [Bool.false_eq_true, false_iff]; omega
    · intro hf; simp at hf
  · refine ⟨true, { len := m.len + buf.length, buf := memcpy m.buf m.len buf }, by simp [h],
      ?_, ?_, ?_⟩
    · simp only [true_iff]; omega
    · intro hf; simp at hf
    · intro _
      exact ⟨rfl, fun i hi => memcpy_lt buf _ _ _ hi, fun k hk => memcpy_get buf _ _ k hk,
        fun i hi => memcpy_ge buf _ _ _ hi, msg_bytes_memcpy m buf⟩

theorem C8_msg_append_contract_witness :
    ∃ ok m1, msg_append { len := 254, buf := msg_zero.buf } [7, 8] = some (ok, m1)
      ∧ (ok = true ↔ MSG_BUFFER_SIZE - 254 ≥ [7, 8].length)
      ∧ (ok = false → m1 = { len := 254, buf := msg_zero.buf })
      ∧ (ok = true →
          m1.len = 254 + [7, 8].length
          ∧ (∀ i, i < 254 → m1.buf i = msg_zero.buf i)
          ∧ (∀ k (h : k < [7, 8].length), m1.buf (254 + k) = [7, 8][k])
          ∧ (∀ i, 254 + [7, 8].length ≤ i → m1.buf i = msg_zero.buf i)
          ∧ msg_bytes m1 = msg_bytes { len := 254, buf := msg_zero.buf } ++ [7, 8]) :=
  C8_msg_append_contract { len := 254, buf := msg_zero.buf } [7, 8] (by decide)

/-- C9, as amended. A full buffer rejects every append of at least one byte:
`msg_append` returns false and leaves the buffer unchanged; an append of no bytes
returns true; in both cases the length is still 256 afterwards. -/
theorem C9_full_buffer_rejects (m : msg) (buf : List Nat) (hlen : m.len = MSG_BUFFER_SIZE) :
    (buf ≠ [] → msg_append m buf = some (false, m))
      ∧ (buf = [] → ∃ m1, msg_append m buf = some (true, m1) ∧ m1.buf = m.buf)
      ∧ (∃ r, msg_append m buf = some r ∧ r.2.len = MSG_BUFFER_SIZE) := by
  rw [msg_append_cases m buf (by omega)]
  cases buf with
  | nil => simp [hlen, memcpy]
  | cons b bs => simp [hlen]

theorem C9_full_buffer_rejects_witness :
    msg_append { len := 256, buf := msg_zero.buf } [0x41]
      = some (false, { len := 256, buf := msg_zero.buf }) :=
  (C9_full_buffer_rejects { len := 256, buf := msg_zero.buf } [0x41] rfl).1 (by decide)

/-- C9, the claim as stated fails: appending no bytes to a full buffer returns true. -/
theorem C9_full_buffer_counterexample :
    (msg_append { len := 256, buf := msg_zero.buf } []).map (fun r => (r.1, r.2.len))
      = some (true, 256) := by
  decide

/-- C10. Capacity invariant: `length <= 256` is preserved by `msg_reset`, `msg_append`,
`msg_appendbyte`, `msg_setint32` and `msg_setpoint` (each of which returns on a buffer
within capacity), and `msg_reset`, `msg_setint32` and `msg_setpoint` establish it from
any buffer. -/
theorem C10_capacity_invariant :
    (∀ m : msg, msg_len (msg_reset m) ≤ MSG_BUFFER_SIZE)
    ∧ (∀ (m : msg) (buf : List Nat), msg_len m ≤ MSG_BUFFER_SIZE →
        ∃ r, msg_append m buf = some r ∧ msg_len r.2 ≤ MSG_BUFFER_SIZE)
    ∧ (∀ (m : msg) (byte : Nat), msg_len m ≤ MSG_BUFFER_SIZE →
        ∃ r, msg_appendbyte m byte = some r ∧ msg_len r.2 ≤ MSG_BUFFER_SIZE)
    ∧ (∀ (m : msg) (value : Int), isInt32 value →
        ∃ m1, msg_setint32 m value = some m1 ∧ msg_len m1 ≤ MSG_BUFFER_SIZE)
    ∧ (∀ (m : msg) (setpoint : Nat), msg_len (msg_setpoint m setpoint) ≤ MSG_BUFFER_SIZE) := by
  refine ⟨?_, ?_, ?_, ?_, ?_⟩
  · intro m
    simp [msg_len, msg_reset]
  · intro m buf hm
    rw [msg_append_cases m buf hm]
    unfold msg_len at *
    split
    · exact ⟨_, rfl, hm⟩
    · refine ⟨_, rfl, ?_⟩
      simp only
      omega
  · intro m byte hm
    unfold msg_appendbyte msg_asize
    unfold msg_len at *
    simp only [hm, not_true_eq_false, if_false]
    split
    · exact ⟨_, rfl, hm⟩
    · refine ⟨_, rfl, ?_⟩
      simp only
      omega
  · intro m value hv
    obtain ⟨m1, h1, h2, -⟩ := setint32_result m value hv
    refine ⟨m1, h1, ?_⟩
    simp [msg_len, h2, MSG_BUFFER_SIZE]
  · intro m setpoint
    simp [msg_len, msg_setpoint, MSG_BUFFER_SIZE]

theorem C10_capacity_invariant_witness :
    (∃ r, msg_append { len := 250, buf := msg_zero.buf } [1, 2, 3] = some r
        ∧ msg_len r.2 ≤ MSG_BUFFER_SIZE)
    ∧ (∃ r, msg_appendbyte { len := 256, buf := msg_zero.buf } 9 = some r
        ∧ msg_len r.2 ≤ MSG_BUFFER_SIZE)
    ∧ (∃ m1, msg_setint32 { len := 300, buf := msg_zero.buf } (-5) = some m1
        ∧ msg_len m1 ≤ MSG_BUFFER_SIZE) :=
  ⟨C10_capacity_invariant.2.1 { len := 250, buf := msg_zero.buf } [1, 2, 3] (by decide),
    C10_capacity_invariant.2.2.1 { len := 256, buf := msg_zero.buf } 9 (by decide),
    C10_capacity_invariant.2.2.2.1 { len := 300, buf := msg_zero.buf } (-5) (by decide)⟩

/-- C11. Decoding by `msg_getint32`: on every buffer whose length is not 4 it returns
the sentinel -1; on every buffer of length 4 with bytes `b0 b1 b2 b3` it returns the
two's-complement signed 32-bit reading of `b0 + 2^8 b1 + 2^16 b2 + 2^24 b3` (byte 0
least significant), a 32-bit value that is negative exactly when the top bit of `b3`
is set. -/
theorem C11_getint32_decoding (m : msg) :
    (m.len ≠ 4 → msg_getint32 m = -1)
    ∧ (m.len = 4 → m.buf 0 < 256 → m.buf 1 < 256 → m.buf 2 < 256 → m.buf 3 < 256 →
        msg_getint32 m
            = (if m.buf 0 + 2 ^ 8 * m.buf 1 + 2 ^ 16 * m.buf 2 + 2 ^ 24 * m.buf 3 < 2 ^ 31
               then ((m.buf 0 + 2 ^ 8 * m.buf 1 + 2 ^ 16 * m.buf 2 + 2 ^ 24 * m.buf 3 : Nat) : Int)
               else ((m.buf 0 + 2 ^ 8 * m.buf 1 + 2 ^ 16 * m.buf 2 + 2 ^ 24 * m.buf 3 : Nat) : Int)
                 - 2 ^ 32)
          ∧ isInt32 (msg_getint32 m)
          ∧ (msg_getint32 m < 0 ↔ (m.buf 3).testBit 7 = true)
          ∧ (msg_getint32 m < 0 ↔ 128 ≤ m.buf 3)) := by
  constructor
  · intro h
    simp [msg_getint32, h]
  · intro hlen h0 h1 h2 h3
    have hget := getint32_eq m hlen h0 h1 h2 h3
    have hbit : (m.buf 3).testBit 7 = true ↔ 128 ≤ m.buf 3 := by
      rw [Nat.testBit_to_div_mod]
      simp only [decide_eq_true_eq]
      omega
    rw [hbit, hget]
    unfold toInt32 isInt32
    generalize m.buf 0 = b0 at *
    generalize m.buf 1 = b1 at *
    generalize m.buf 2 = b2 at *
    generalize m.buf 3 = b3 at *
    refine ⟨?_, ?_, ?_, ?_⟩
    · split <;> split <;> omega
    · split <;> omega
    · split <;> omega
    · split <;> omega

theorem C11_getint32_decoding_witness :
    msg_getint32 { len := 3, buf := msg_zero.buf } = -1
    ∧ (msg_getint32 { len := 4, buf := Function.update msg_zero.buf 3 0x80 } < 0
        ↔ 128 ≤ Function.update msg_zero.buf 3 0x80 3) :=
  ⟨(C11_getint32_decoding { len := 3, buf := msg_zero.buf }).1 (by decide),
    ((C11_getint32_decoding { len := 4, buf := Function.update msg_zero.buf 3 0x80 }).2 rfl
      (by decide) (by decide) (by decide) (by decide)).2.2.2⟩

/-- C12. Checksum: on every buffer of length `L`, `msg_checksum` returns the sum
modulo 256 of the bytes `0 .. L-2` (0 when `L` is 0 or 1), the last byte left out; so
two buffers of the same length that agree on the bytes `0 .. L-2` have the same
checksum whatever their last bytes.  (The function only reads the buffer: it returns
the sum and nothing else.) -/
theorem C12_checksum (m : msg) :
    msg_checksum m = ((List.range (m.len - 1)).map m.buf).sum % 256
    ∧ (m.len ≤ 1 → msg_checksum m = 0)
    ∧ (∀ m2 : msg, m2.len = m.len → (∀ i, i + 1 < m.len → m2.buf i = m.buf i) →
        msg_checksum m2 = msg_checksum m) := by
  refine ⟨msg_checksum_eq m, ?_, ?_⟩
  · intro h
    have h0 : m.len - 1 = 0 := by omega
    rw [msg_checksum_eq, h0]
    rfl
  · intro m2 hlen hagree
    rw [msg_checksum_eq, msg_checksum_eq, hlen]
    congr 2
    apply List.map_congr_left
    intro i hi
    have := List.mem_range.mp hi
    exact hagree i (by omega)

theorem C12_checksum_witness :
    msg_checksum { len := 1, buf := Function.update msg_zero.buf 0 0x99 } = 0
    ∧ msg_checksum { len := 3, buf := Function.update (memcpy msg_zero.buf 0 [0xF0, 0x20]) 2 0x55 }
        = msg_checksum { len := 3, buf := memcpy msg_zero.buf 0 [0xF0, 0x20] } :=
  ⟨(C12_checksum { len := 1, buf := Function.update msg_zero.buf 0 0x99 }).2.1 (by decide),
    (C12_checksum { len := 3, buf := memcpy msg_zero.buf 0 [0xF0, 0x20] }).2.2
      { len := 3, buf := Function.update (memcpy msg_zero.buf 0 [0xF0, 0x20]) 2 0x55 } rfl
      (fun i hi => by
        have hi3 : i + 1 < 3 := hi
        have hne : i ≠ 2 := by omega
        simp [Function.update_apply, hne])⟩

/-- C13. Control frame layout: for every setpoint byte `s` and every starting buffer,
after `msg_setpoint` the buffer has length 6 and bytes `87 09 03 s s c` with
`c = (0x87 + 0x09 + 0x03 + s + s) mod 256`, and `c` is `msg_checksum` of the resulting
buffer; for `s = 0x57` the frame is `87 09 03 57 57 41`. -/
theorem C13_control_frame (m : msg) (s : Nat) :
    msg_len (msg_setpoint m s) = 6
    ∧ msg_bytes (msg_setpoint m s)
        = [0x87, 0x09, 0x03, s, s, (0x87 + 0x09 + 0x03 + s + s) % 256]
    ∧ msg_checksum (msg_setpoint m s) = (0x87 + 0x09 + 0x03 + s + s) % 256
    ∧ msg_bytes (msg_setpoint m 0x57) = [0x87, 0x09, 0x03, 0x57, 0x57, 0x41] := by
  have hsum : ∀ t : Nat, ((((135 % 256 + 9) % 256 + 3) % 256 + t) % 256 + t) % 256
      = (135 + 9 + 3 + t + t) % 256 := by
    intro t
    omega
  have hbytes : ∀ t : Nat, msg_bytes (msg_setpoint m t)
      = [0x87, 0x09, 0x03, t, t, (0x87 + 0x09 + 0x03 + t + t) % 256] := by
    intro t
    simp [msg_bytes, msg_setpoint, msg_checksum, msg_checksum_loop, memcpy, List.range_succ,
      Function.update_apply, hsum]
  refine ⟨rfl, hbytes s, ?_, ?_⟩
  · simp [msg_setpoint, msg_checksum, msg_checksum_loop, memcpy, Function.update_apply, hsum]
  · rw [hbytes 0x57]

/-- C14. Byte-exact comparison: for buffers with length at most 256, `msg_cmp` returns 0
if and only if the lengths are equal and the first `length` bytes are equal; the bytes
stored beyond `length` never influence the result. -/
theorem C14_msg_cmp (m1 m2 : msg) (h1 : m1.len ≤ MSG_BUFFER_SIZE)
    (h2 : m2.len ≤ MSG_BUFFER_SIZE) :
    (msg_cmp m1 m2 = 0 ↔ m1.len = m2.len ∧ ∀ i, i < m1.len → m1.buf i = m2.buf i)
    ∧ (msg_cmp m1 m2 = 0 ↔ msg_bytes m1 = msg_bytes m2)
    ∧ (∀ n1 n2 : msg, n1.len = m1.len → n2.len = m2.len →
        (∀ i, i < m1.len → n1.buf i = m1.buf i) → (∀ i, i < m2.len → n2.buf i = m2.buf i) →
        msg_cmp n1 n2 = msg_cmp m1 m2) := by
  have hiff : msg_cmp m1 m2 = 0 ↔ m1.len = m2.len ∧ ∀ i, i < m1.len → m1.buf i = m2.buf i := by
    unfold msg_cmp
    by_cases hl : m1.len = m2.len
    · have hz := (size_sub_eq_zero m1.len m2.len h1 h2).mpr hl
      simp only [hz, ne_eq, not_true_eq_false, if_false, memcmp, memcmp_from_eq_zero,
        Nat.zero_add]
      simp only [hl, true_and]
    · have hz : size_sub m1.len m2.len ≠ 0 :=
        fun h => hl ((size_sub_eq_zero m1.len m2.len h1 h2).mp h)
      simp only [ne_eq, hz, not_false_eq_true, if_true, hl, false_and, iff_false]
      exact size_sub_int_ne_zero m1.len m2.len h1 h2 hl
  refine ⟨hiff, ?_, ?_⟩
  · rw [hiff]
    constructor
    · rintro ⟨hl, hb⟩
      unfold msg_bytes
      rw [← hl]
      apply List.map_congr_left
      intro i hi
      exact hb i (List.mem_range.mp hi)
    · intro hb
      have hl : m1.len = m2.len := by
        rw [← msg_bytes_length m1, ← msg_bytes_length m2, hb]
      refine ⟨hl, fun i hi => ?_⟩
      have hi2 : i < m2.len := by omega
      have e1 : (msg_bytes m1)[i]? = some (m1.buf i) := by simp [msg_bytes, hi]
      have e2 : (msg_bytes m2)[i]? = some (m2.buf i) := by simp [msg_bytes, hi2]
      rw [hb, e2] at e1
      simpa using e1.symm
  · intro n1 n2 hl1 hl2 hb1 hb2
    unfold msg_cmp
    rw [hl1, hl2]
    by_cases hl : m1.len = m2.len
    · have hz := (size_sub_eq_zero m1.len m2.len h1 h2).mpr hl
      simp only [hz, ne_eq, not_true_eq_false, if_false, memcmp]
      apply memcmp_from_congr
      intro k hk
      simp only [Nat.zero_add]
      exact ⟨hb1 k hk, hb2 k (by omega)⟩
    · have hz : size_sub m1.len m2.len ≠ 0 :=
        fun h => hl ((size_sub_eq_zero m1.len m2.len h1 h2).mp h)
      simp only [ne_eq, hz, not_false_eq_true, if_true]

theorem C14_msg_cmp_witness :
    (msg_cmp { len := 2, buf := memcpy msg_zero.buf 0 [1, 2, 3] }
        { len := 2, buf := memcpy msg_zero.buf 0 [1, 2, 4] } = 0
      ↔ msg_bytes { len := 2, buf := memcpy msg_zero.buf 0 [1, 2, 3] }
        = msg_bytes { len := 2, buf := memcpy msg_zero.buf 0 [1, 2, 4] }) :=
  (C14_msg_cmp { len := 2, buf := memcpy msg_zero.buf 0 [1, 2, 3] }
    { len := 2, buf := memcpy msg_zero.buf 0 [1, 2, 4] } (by decide) (by decide)).2.1

/-- C15, on the empty buffer. With every parity change and write succeeding, `msg_send`
of a buffer of length 0 still writes one byte, the stale `buf[0]`, under mark parity:
the line carries one byte where the message has none. -/
theorem C15_msg_send_empty :
    msg_send { len := 0, buf := Function.update msg_zero.buf 0 0xAB }
        { parity := Parity.space, wire := [] }
        { setmark := 0, write_first := 1, setspace := 0, write_remaining := 0 }
      = .ok { parity := Parity.space, wire := [(Parity.mark, 0xAB)] }
    ∧ msg_bytes { len := 0, buf := Function.update msg_zero.buf 0 0xAB } = []
    ∧ SendEnv.succeeds
        { setmark := 0, write_first := 1, setspace := 0, write_remaining := 0 } 0 := by
  refine ⟨rfl, rfl, ?_⟩
  decide

/-- C16, as amended. Decoding stops at the end of the read that completes the payload:
when a read, all of whose bytes are processed without failure, leaves 4 bytes in the
buffer, the receive loop terminates successfully with that buffer, and reads that
follow a successful end are never made and do not change the outcome.  The bytes that
follow the 4th payload byte in the same read are still processed, and a payload byte
among them makes the loop fail with "too many bytes". -/
theorem C16_stops_after_completing_read :
    (∀ (s s1 : DecoderState) (c : List Nat) (later : List ReadResult),
        msg_len s.currmsg ≠ 4 → read_bytes s c = .ok s1 → msg_len s1.currmsg = 4 →
        recv_loop s (ReadResult.data c :: later) = .ok s1)
    ∧ (∀ (s s1 : DecoderState) (r1 r2 : List ReadResult),
        recv_loop s r1 = .ok s1 → recv_loop s (r1 ++ r2) = .ok s1)
    ∧ (∀ (s s1 : DecoderState) (pre rest : List Nat) (b : Nat) (later : List ReadResult),
        msg_len s.currmsg ≠ 4 → read_bytes s pre = .ok s1 → msg_len s1.currmsg = 4 →
        s1.markedfirstbyte = true → is_payload_byte s1 b →
        recv_loop s (ReadResult.data (pre ++ b :: rest) :: later)
          = .error (.too_many_bytes,
              { currmsg := { len := 5, buf := Function.update s1.currmsg.buf 4 b },
                markedfirstbyte := true, escaped := false })) := by
  refine ⟨?_, ?_, ?_⟩
  · intro s s1 c later hs hc h4
    exact recv_loop_completing_read s s1 c later hs hc h4
  · intro s s1 r1 r2 h
    exact recv_loop_append_ok r1 r2 s s1 h
  · intro s s1 pre rest b later hs hpre h4 hm hb
    have h4n : s1.currmsg.len = 4 := h4
    have hstep : decode_byte s1 b = .error (.too_many_bytes,
        { currmsg := { len := 5, buf := Function.update s1.currmsg.buf 4 b },
          markedfirstbyte := true, escaped := false }) := by
      rw [decode_byte_payload s1 b hb]
      simp [handle_payload, msg_appendbyte, msg_len, msg_asize, MSG_BUFFER_SIZE, sizeof_int32,
        hm, h4n]
    have hs4 : msg_len s.currmsg ≠ sizeof_int32 := hs
    unfold recv_loop
    simp only [hs4, ne_eq, not_false_eq_true, if_true]
    rw [read_bytes_append, hpre]
    simp only [read_bytes, hstep]

theorem C16_stops_after_completing_read_witness :
    recv_loop (initial_state msg_zero)
        ([ReadResult.data [0xFF, 0x00, 0x11, 0x22], ReadResult.data [0x33, 0x44]]
          ++ [ReadResult.data [0x55], ReadResult.failed])
      = .ok { currmsg := { len := 4, buf := memcpy msg_zero.buf 0 [0x11, 0x22, 0x33, 0x44] },
              markedfirstbyte := true, escaped := false } :=
  C16_stops_after_completing_read.2.1 (initial_state msg_zero)
    { currmsg := { len := 4, buf := memcpy msg_zero.buf 0 [0x11, 0x22, 0x33, 0x44] },
      markedfirstbyte := true, escaped := false }
    [ReadResult.data [0xFF, 0x00, 0x11, 0x22], ReadResult.data [0x33, 0x44]]
    [ReadResult.data [0x55], ReadResult.failed] rfl

/-- C16, the claim as stated fails: the stream `FF 00 11 22 33 44 55` read as
`FF 00 11 22 | 33 44 | 55` ends successfully with the payload `11 22 33 44`, but read as
`FF 00 11 22 | 33 44 55`, the byte after the 4th payload byte arriving in the same read,
it ends with the failure "too many bytes". -/
theorem C16_trailing_byte_counterexample :
    (∃ s, recv_loop (initial_state msg_zero)
        [ReadResult.data [0xFF, 0x00, 0x11, 0x22], ReadResult.data [0x33, 0x44],
          ReadResult.data [0x55]] = .ok s
      ∧ msg_bytes s.currmsg = [0x11, 0x22, 0x33, 0x44])
    ∧ (∃ sx, recv_loop (initial_state msg_zero)
        [ReadResult.data [0xFF, 0x00, 0x11, 0x22], ReadResult.data [0x33, 0x44, 0x55]]
          = .error (.too_many_bytes, sx)
      ∧ msg_bytes sx.currmsg = [0x11, 0x22, 0x33, 0x44, 0x55]) :=
  ⟨⟨_, rfl, by decide⟩, ⟨_, rfl, by decide⟩⟩

/-- C17, as amended. Appending never shrinks a buffer: on every buffer with length at
most 256, `msg_append` and `msg_appendbyte` return with a length at least the length
before.  `msg_setint32` and `msg_setpoint` overwrite the buffer and set the length to 4
and to 6 whatever it was, so the length does not decrease exactly when the buffer held
at most 4, respectively at most 6, bytes. -/
theorem C17_shrinks_only_by_overwrite (m : msg) (hm : msg_len m ≤ MSG_BUFFER_SIZE) :
    (∀ buf : List Nat, ∃ r, msg_append m buf = some r ∧ msg_len m ≤ msg_len r.2)
    ∧ (∀ byte : Nat, ∃ r, msg_appendbyte m byte = some r ∧ msg_len m ≤ msg_len r.2)
    ∧ (∀ value : Int, isInt32 value →
        ∃ m1, msg_setint32 m value = some m1 ∧ msg_len m1 = 4
          ∧ (msg_len m ≤ msg_len m1 ↔ msg_len m ≤ 4))
    ∧ (∀ setpoint : Nat, msg_len (msg_setpoint m setpoint) = 6
        ∧ (msg_len m ≤ msg_len (msg_setpoint m setpoint) ↔ msg_len m ≤ 6)) := by
  refine ⟨?_, ?_, ?_, ?_⟩
  · intro buf
    rw [msg_append_cases m buf hm]
    split
    · exact ⟨_, rfl, Nat.le_refl _⟩
    · exact ⟨_, rfl, by simp [msg_len]⟩
  · intro byte
    unfold msg_appendbyte msg_asize
    simp only [hm, not_true_eq_false, if_false]
    split
    · exact ⟨_, rfl, Nat.le_refl _⟩
    · exact ⟨_, rfl, by simp [msg_len]⟩
  · intro value hv
    obtain ⟨m1, h1, h2, -⟩ := setint32_result m value hv
    refine ⟨m1, h1, h2, ?_⟩
    simp only [msg_len, h2]
  · intro setpoint
    have h6 : msg_len (msg_setpoint m setpoint) = 6 := rfl
    exact ⟨h6, by rw [h6]⟩

theorem C17_shrinks_only_by_overwrite_witness :
    (∃ r, msg_append { len := 10, buf := msg_zero.buf } [1, 2] = some r
        ∧ msg_len { len := 10, buf := msg_zero.buf } ≤ msg_len r.2)
    ∧ (∃ m1, msg_setint32 { len := 3, buf := msg_zero.buf } 7 = some m1 ∧ msg_len m1 = 4
        ∧ (msg_len { len := 3, buf := msg_zero.buf } ≤ msg_len m1
          ↔ msg_len { len := 3, buf := msg_zero.buf } ≤ 4)) :=
  ⟨(C17_shrinks_only_by_overwrite { len := 10, buf := msg_zero.buf } (by decide)).1 [1, 2],
    (C17_shrinks_only_by_overwrite { len := 3, buf := msg_zero.buf } (by decide)).2.2.1 7
      (by decide)⟩

/-- C17, the claim as stated fails: `msg_setint32` and `msg_setpoint` on a buffer of 10
bytes leave 4 and 6 bytes. -/
theorem C17_overwrite_shrinks_counterexample :
    (msg_setint32 { len := 10, buf := msg_zero.buf } 0).map msg_len = some 4
    ∧ msg_len (msg_setpoint { len := 10, buf := msg_zero.buf } 0) = 6
    ∧ msg_len { len := 10, buf := msg_zero.buf } = 10 := by
  decide

/-- C18. The unchecked append of the decoder cannot fail: in every state the receive
loop reaches from a reset buffer (the state after any beginning of the bytes read so
far) the buffer holds at most 4 bytes; on such a buffer `msg_appendbyte` returns true
and stores the byte at the end; so no run of the loop trips the assertion of
`msg_appendbyte`, the ignored flag is never false, and the loop hands over to
`msg_getint32` only a buffer of length 4. -/
theorem C18_unchecked_append (m : msg) :
    (∀ (pre : List Nat) (s : DecoderState),
        read_bytes (initial_state m) pre = .ok s → msg_len s.currmsg ≤ 4)
    ∧ (∀ (s : DecoderState) (b : Nat), msg_len s.currmsg ≤ 4 →
        msg_appendbyte s.currmsg b
          = some (true, { len := s.currmsg.len + 1,
                          buf := Function.update s.currmsg.buf s.currmsg.len b }))
    ∧ (∀ (reads : List ReadResult) (sx : DecoderState),
        recv_loop (initial_state m) reads ≠ .error (.assertion, sx))
    ∧ (∀ (reads : List ReadResult) (s : DecoderState),
        recv_loop (initial_state m) reads = .ok s → msg_len s.currmsg = 4) := by
  have h0 : (initial_state m).currmsg.len ≤ 4 := by simp [initial_state, msg_reset]
  refine ⟨?_, ?_, ?_, ?_⟩
  · intro pre s h
    exact (read_bytes_le4 pre (initial_state m) h0).1 s h
  · intro s b hs
    have hs4 : s.currmsg.len ≤ 4 := hs
    have h1 : s.currmsg.len ≤ 256 := by omega
    have h2 : ¬ (256 - s.currmsg.len < 1) := by omega
    simp [msg_appendbyte, msg_len, msg_asize, MSG_BUFFER_SIZE, h1, h2]
  · intro reads sx
    exact recv_loop_no_assertion reads (initial_state m) h0 sx
  · intro reads s h
    exact recv_loop_ok_len reads (initial_state m) s h

theorem C18_unchecked_append_witness :
    msg_len ({ currmsg := { len := 1, buf := Function.update msg_zero.buf 0 0x11 },
               markedfirstbyte := true, escaped := false } : DecoderState).currmsg ≤ 4
    ∧ msg_appendbyte { len := 4, buf := msg_zero.buf } 0x55
        = some (true, { len := 5, buf := Function.update msg_zero.buf 4 0x55 }) :=
  ⟨(C18_unchecked_append msg_zero).1 [0xFF, 0x00, 0x11]
      { currmsg := { len := 1, buf := Function.update msg_zero.buf 0 0x11 },
        markedfirstbyte := true, escaped := false } rfl,
    (C18_unchecked_append msg_zero).2.1
      { currmsg := { len := 4, buf := msg_zero.buf }, markedfirstbyte := true, escaped := false }
      0x55 (by decide)⟩

/-- C19, as amended. The outcome does not depend on how the stream is cut into reads,
for a stream that ends before the payload is overrun: for a raw stream whose last byte,
met with fewer than 4 payload bytes in the buffer, is the one that completes the 4th
payload byte or makes the decoder fail, any two ways of cutting the stream into
consecutive non-empty reads of at most 4 bytes give the same outcome, namely the
outcome of that last byte in the state all the bytes before it lead to: the same
payload and flags, or the same failure at that byte. -/
theorem C19_chunking_independent (m : msg) (pre : List Nat) (b : Nat) (s1 : DecoderState)
    (chunks1 chunks2 : List (List Nat))
    (hpre : read_bytes (initial_state m) pre = .ok s1)
    (hlen : msg_len s1.currmsg < 4)
    (hlast : (∃ e, decode_byte s1 b = .error e)
      ∨ (∃ s2, decode_byte s1 b = .ok s2 ∧ msg_len s2.currmsg = 4))
    (hcut1 : chunks1.flatten = pre ++ [b]) (hcut2 : chunks2.flatten = pre ++ [b])
    (_hread1 : ∀ c ∈ chunks1, c ≠ [] ∧ c.length ≤ sizeof_int32)
    (_hread2 : ∀ c ∈ chunks2, c ≠ [] ∧ c.length ≤ sizeof_int32) :
    recv_loop (initial_state m) (chunks1.map ReadResult.data)
        = recv_loop (initial_state m) (chunks2.map ReadResult.data)
      ∧ recv_loop (initial_state m) (chunks1.map ReadResult.data) = decode_byte s1 b := by
  have hfin : Final (decode_byte s1 b) := by
    rcases hlast with ⟨e, he⟩ | ⟨s2, hs2, h4⟩
    · rw [he]
      trivial
    · rw [hs2]
      exact h4
  have e1 := recv_loop_last (initial_state m) s1 pre b hpre hlen hfin chunks1 hcut1
  have e2 := recv_loop_last (initial_state m) s1 pre b hpre hlen hfin chunks2 hcut2
  exact ⟨e1.trans e2.symm, e1⟩

theorem C19_chunking_independent_witness :
    recv_loop (initial_state msg_zero)
        ([[0xFF], [0x00, 0xFF], [0xFF, 0x22, 0x33, 0x44]].map ReadResult.data)
      = recv_loop (initial_state msg_zero)
        ([[0xFF, 0x00, 0xFF, 0xFF], [0x22, 0x33], [0x44]].map ReadResult.data) :=
  (C19_chunking_independent msg_zero [0xFF, 0x00, 0xFF, 0xFF, 0x22, 0x33] 0x44
    { currmsg := { len := 3, buf := memcpy msg_zero.buf 0 [0xFF, 0x22, 0x33] },
      markedfirstbyte := true, escaped := false }
    [[0xFF], [0x00, 0xFF], [0xFF, 0x22, 0x33, 0x44]]
    [[0xFF, 0x00, 0xFF, 0xFF], [0x22, 0x33], [0x44]]
    rfl (by decide) (Or.inr ⟨_, rfl, by decide⟩) rfl rfl (by decide) (by decide)).1

/-- C19, the claim as stated fails: the last byte of the stream `FF 00 11 22 33 44 55`
triggers the failure "too many bytes" when the stream is decoded in one piece, all the
bytes before it being processed without failure; cut into the non-empty reads
`FF 00 11 22 | 33 44 55` the stream ends with that failure, but cut into
`FF 00 11 22 | 33 44 | 55` it ends successfully with the payload `11 22 33 44`, the
last read never being made. -/
theorem C19_overrun_cut_counterexample :
    (∃ s1 sx, read_bytes (initial_state msg_zero) [0xFF, 0x00, 0x11, 0x22, 0x33, 0x44] = .ok s1
      ∧ decode_byte s1 0x55 = .error (.too_many_bytes, sx))
    ∧ [[0xFF, 0x00, 0x11, 0x22], [0x33, 0x44, 0x55]].flatten
        = [0xFF, 0x00, 0x11, 0x22, 0x33, 0x44] ++ [0x55]
    ∧ [[0xFF, 0x00, 0x11, 0x22], [0x33, 0x44], [0x55]].flatten
        = [0xFF, 0x00, 0x11, 0x22, 0x33, 0x44] ++ [0x55]
    ∧ (∀ c ∈ [[0xFF, 0x00, 0x11, 0x22], [0x33, 0x44, 0x55]], c ≠ [] ∧ c.length ≤ sizeof_int32)
    ∧ (∀ c ∈ [[0xFF, 0x00, 0x11, 0x22], [0x33, 0x44], [0x55]], c ≠ [] ∧ c.length ≤ sizeof_int32)
    ∧ (∃ sx, recv_loop (initial_state msg_zero)
          ([[0xFF, 0x00, 0x11, 0x22], [0x33, 0x44, 0x55]].map ReadResult.data)
        = .error (.too_many_bytes, sx))
    ∧ (∃ s, recv_loop (initial_state msg_zero)
          ([[0xFF, 0x00, 0x11, 0x22], [0x33, 0x44], [0x55]].map ReadResult.data) = .ok s
        ∧ msg_bytes s.currmsg = [0x11, 0x22, 0x33, 0x44]) :=
  ⟨⟨_, _, rfl, rfl⟩, by decide, by decide, by decide, by decide, ⟨_, rfl⟩, ⟨_, rfl, by decide⟩⟩

/-- C20. The wrong-length sentinel of `msg_getint32` cannot be told from a value: the
buffer `msg_setint32` produces for -1 has length 4 and bytes `FF FF FF FF`, and
`msg_getint32` returns -1 on it, the value it returns on every buffer whose length is
not 4; so a result of -1 does not imply that the length differs from 4. -/
theorem C20_sentinel_ambiguous :
    (∀ m : msg, ∃ m1, msg_setint32 m (-1) = some m1 ∧ msg_len m1 = 4
        ∧ msg_bytes m1 = [0xFF, 0xFF, 0xFF, 0xFF] ∧ msg_getint32 m1 = -1)
    ∧ (∀ m : msg, msg_len m ≠ 4 → msg_getint32 m = -1)
    ∧ ¬ (∀ m : msg, msg_getint32 m = -1 → msg_len m ≠ 4) := by
  have hset : ∀ m : msg, ∃ m1, msg_setint32 m (-1) = some m1 ∧ msg_len m1 = 4
      ∧ msg_bytes m1 = [0xFF, 0xFF, 0xFF, 0xFF] ∧ msg_getint32 m1 = -1 := by
    intro m
    obtain ⟨m1, h1, h2, h3, h4, -⟩ := setint32_result m (-1) (by decide)
    refine ⟨m1, h1, h2, ?_, h4⟩
    rw [h3]
    decide
  refine ⟨hset, ?_, ?_⟩
  · intro m h
    have h4 : m.len ≠ 4 := h
    simp [msg_getint32, h4]
  · intro hall
    obtain ⟨m1, -, hlen, -, hget⟩ := hset msg_zero
    exact hall m1 hget hlen

theorem C20_sentinel_ambiguous_witness :
    msg_getint32 { len := 5, buf := msg_zero.buf } = -1 :=
  C20_sentinel_ambiguous.2.1 { len := 5, buf := msg_zero.buf } (by decide)

end GridBallast
